import Mathlib

/-!
# m_permchannels: serializer, atomic writer, permanent-flag gate, dirty tracking

A shallow embedding of `src/modules/m_permchannels.cpp` (InspIRCd): the bounded
escaping loop of `WriteDatabase`, its temp-file/rename write path over an explicit
file-system state, `PermChannel::OnModeChange`, and the hooks that maintain the
module's `dirty` flag.

Conventions.
* A C `char` is a `Char`; a string buffer is the `List Char` of its bytes.  The byte
  `'\x00'` is the C terminator: `charAt` reads it one past the end of a buffer, and
  `cstr` is the C-string content of a buffer (what lies before the first NUL).
* Code that may perform an out-of-bounds or uninitialised access returns `Option`;
  `none` is undefined behaviour.
-/

set_option linter.unusedVariables false

namespace PermChannels

/-! ## The line buffer `char line[1024]` -/

/-- The NUL byte that terminates a C string. -/
def NUL : Char := '\x00'

/-- The C-string content of a buffer: the bytes before the first NUL
(`std::string::c_str()` read as a `const char*`). -/
def cstr (s : List Char) : List Char := s.takeWhile (fun c => c != NUL)

/-- The read `s[i]` of a NUL-terminated buffer: the terminator sits one past the end. -/
def charAt (s : List Char) (i : Nat) : Char := s.getD i NUL

/-- A `char[1024]` stack buffer; a cell is `none` until it is first written. -/
abbrev LineBuf := List (Option Char)

/-- The declaration `char line[1024];` (uninitialised). -/
def LineBuf.fresh : LineBuf := List.replicate 1024 none

/-- The store `line[i] = c`; `none` when `i` is outside `0 .. 1023`. -/
def LineBuf.write (b : LineBuf) (i : Int) (c : Char) : Option LineBuf :=
  if 0 ≤ i ∧ i < 1024 then some (b.set i.toNat (some c)) else none

/-- What `fputs(line, f)` reads: the cells up to the first NUL; `none` when it meets an
unwritten cell or runs off the buffer first. -/
def LineBuf.readCStr : LineBuf → Option (List Char)
  | [] => none
  | none :: _ => none
  | some c :: rest => if c = NUL then some [] else (LineBuf.readCStr rest).map (fun l => c :: l)

/-! ## The serializer loop of `WriteDatabase` (lines 60-90) -/

/-- The array `items[]` for a channel with the given name, topic and mode string. -/
def items (name topic modes : List Char) : List (List Char) :=
  [ "<permchannels channel=".toList, name, " topic=".toList, topic,
    " modes=".toList, modes, ">\n".toList ]

/-- The locals of the loop: `line`, `lpos`, `item`, `ipos`. -/
structure LoopState where
  line : LineBuf
  lpos : Int
  item : Nat
  ipos : Nat

/-- One execution of the body of `while (lpos < 1022 && item < 7)`. -/
def loopBody (its : List (List Char)) (s : LoopState) : Option LoopState :=
  let c := charAt (its.getD s.item []) s.ipos
  if c = NUL then
    -- end of this string; hop to next string, insert a quote
    (s.line.write s.lpos '"').map fun l =>
      { line := l, lpos := s.lpos + 1, item := s.item + 1, ipos := 0 }
  else if c = '\\' ∨ c = '"' then
    (s.line.write s.lpos '\\').bind fun l1 =>
      (l1.write (s.lpos + 1) c).map fun l2 =>
        { line := l2, lpos := s.lpos + 2, item := s.item, ipos := s.ipos + 1 }
  else
    (s.line.write s.lpos c).map fun l =>
      { line := l, lpos := s.lpos + 1, item := s.item, ipos := s.ipos + 1 }

/-- The `while` loop, with a bound on the number of iterations; `none` when the bound is
reached with the loop condition still true, or when a store is out of bounds. -/
def loop (its : List (List Char)) : Nat → LoopState → Option LoopState
  | 0, s => if s.lpos < 1022 ∧ s.item < 7 then none else some s
  | fuel + 1, s =>
    if s.lpos < 1022 ∧ s.item < 7 then (loopBody its s).bind (loop its fuel) else some s

/-- Lines 60-90 for one channel: run the loop from `lpos = item = ipos = 0`, store the
terminator with `line[--lpos] = 0`, and hand the buffer to `fputs`.  Every iteration
advances `lpos`, so 1022 iterations are always enough. -/
def serializeLine (name topic modes : List Char) : Option (List Char) :=
  (loop (items name topic modes) 1022 { line := LineBuf.fresh, lpos := 0, item := 0, ipos := 0 }).bind
    fun s => (s.line.write (s.lpos - 1) NUL).bind LineBuf.readCStr

/-! ## The record line as the specification words it -/

/-- The escaping rule in the specification's words: a backslash is put before every
backslash and every double quote, every other character is copied. -/
def esc : List Char → List Char
  | [] => []
  | c :: cs => if c = '\\' ∨ c = '"' then '\\' :: c :: esc cs else c :: esc cs

/-- The inverse rule of a conformant reader, in the specification's words: a backslash is
dropped and the character after it is taken literally. -/
def unesc : List Char → List Char
  | [] => []
  | [c] => if c = '\\' then [] else [c]
  | c :: d :: cs => if c = '\\' then d :: unesc cs else c :: unesc (d :: cs)

/-- The ideal, unbounded record line for name `n`, topic `t` and mode string `m`. -/
def idealLine (n t m : List Char) : List Char :=
  "<permchannels channel=\"".toList ++ esc n ++ "\" topic=\"".toList ++ esc t
    ++ "\" modes=\"".toList ++ esc m ++ "\">\n".toList

/-! ## The loop as a consumer of tokens

Each iteration of the loop appends one *token* to the line: the one or two bytes it
stores.  `pending` lists the tokens still to come from a position `(item, ipos)`, and
`run` is the loop on that list. -/

/-- The bytes one iteration stores for a character read from an item. -/
def emit (c : Char) : List Char := if c = '\\' ∨ c = '"' then ['\\', c] else [c]

/-- The tokens of one item: its characters, then the quote stored at its terminator. -/
def tokensOf (s : List Char) : List (List Char) := (cstr s).map emit ++ [['"']]

/-- The tokens of a list of items, in order. -/
def allTokens : List (List Char) → List (List Char)
  | [] => []
  | s :: rest => tokensOf s ++ allTokens rest

/-- The tokens still to come when the loop stands at `items[item][ipos]`. -/
def pending (its : List (List Char)) (item ipos : Nat) : List (List Char) :=
  match its.drop item with
  | [] => []
  | s :: rest => ((cstr s).drop ipos).map emit ++ [['"']] ++ allTokens rest

/-- The loop on tokens: append tokens while fewer than 1022 bytes are stored. -/
def run : List (List Char) → List Char → List Char
  | [], out => out
  | tok :: toks, out => if out.length < 1022 then run toks (out ++ tok) else out

/-- Concatenation of a list of tokens. -/
def flat : List (List Char) → List Char
  | [] => []
  | tok :: toks => tok ++ flat toks

/-- A token is one or two bytes, none of them NUL. -/
def GoodTok (tok : List Char) : Prop := tok ≠ [] ∧ tok.length ≤ 2 ∧ NUL ∉ tok

/-- The bytes the loop stores for a channel, before the last one is overwritten. -/
def stored (n t m : List Char) : List Char := run (allTokens (items n t m)) []

/-! ## Channels and the channel list

`Channel` and the global `ServerInstance->chanlist` are declared outside this module;
what follows is the part of them the module reads and writes. -/

/-- Modelled from the spec: the class `Channel` (an entity: a unique name, a topic with
its timestamp, a flag set that includes the permanent flag, a live member count). -/
structure Channel where
  /-- The channel name, the key of the channel in `chanlist`. -/
  name : List Char
  /-- The creation timestamp given to the constructor. -/
  age : Nat
  topic : List Char
  /-- The timestamp of the topic. -/
  topicset : Nat
  /-- The mode bits, one per mode letter. -/
  modes : Char → Bool
  /-- The parameters of the modes that carry one. -/
  params : Char → List Char
  /-- The number of members, `userlist.size()`. -/
  users : Nat

/-- Modelled from the spec: `Channel::IsModeSet(char)`, the test of a mode bit. -/
def IsModeSet (c : Channel) (mode : Char) : Bool := c.modes mode

/-- Modelled from the spec: `Channel::SetMode(char, bool)` (and its `ModeHandler*`
overload), the store of one mode bit. -/
def SetMode (c : Channel) (mode : Char) (mode_on : Bool) : Channel :=
  { c with modes := fun x => if x = mode then mode_on else c.modes x }

/-- Modelled from the spec: `Channel::GetUserCounter()`, the live member count. -/
def GetUserCounter (c : Channel) : Nat := c.users

/-- The effect on `chanlist` of a store through a `Channel*`: the list holds pointers, so
the entry with that name shows the updated object. -/
def store (chanlist : List Channel) (c : Channel) : List Channel :=
  chanlist.map fun x => if x.name = c.name then c else x

/-- The result of a mode handler. -/
inductive ModeAction where
  | MODEACTION_DENY
  | MODEACTION_ALLOW
  deriving DecidableEq, Repr

/-- The result of a module hook. -/
inductive ModResult where
  | MOD_RES_DENY
  | MOD_RES_PASSTHRU
  | MOD_RES_ALLOW
  deriving DecidableEq, Repr

open ModeAction ModResult

/-- The hook `ModulePermanentChannels::OnChannelPreDelete` (lines 298-304). -/
def OnChannelPreDelete (c : Channel) : ModResult :=
  if IsModeSet c 'P' then MOD_RES_DENY else MOD_RES_PASSTHRU

/-- Modelled from the spec: `Channel::DelUser(ServerInstance->FakeClient)`.  The fake
client is a member of no channel, so the member list is left as it is; when it is empty
the deletion veto is asked (this module's `OnChannelPreDelete` is the only one registered)
and, unless it denies, the channel is erased from `chanlist`. -/
def DelUser (chanlist : List Channel) (c : Channel) : List Channel :=
  if GetUserCounter c = 0 then
    if OnChannelPreDelete c = MOD_RES_DENY then chanlist
    else chanlist.filter fun x => decide (x.name ≠ c.name)
  else chanlist

/-! ## `PermChannel::OnModeChange` (lines 131-155) -/

/-- The handler of mode `P`.  It returns the action, the channel object after the call,
and `chanlist` after the call.  The arguments `source`, `dest` and `parameter` are not
read by the handler. -/
def PermChannel.OnModeChange (chanlist : List Channel) (channel : Channel) (adding : Bool) :
    ModeAction × Channel × List Channel :=
  if adding then
    if ¬ IsModeSet channel 'P' then
      let ch := SetMode channel 'P' true
      (MODEACTION_ALLOW, ch, store chanlist ch)
    else (MODEACTION_DENY, channel, chanlist)
  else
    if IsModeSet channel 'P' then
      let ch := SetMode channel 'P' false
      let cl := store chanlist ch
      let cl := if GetUserCounter ch = 0 then DelUser cl ch else cl
      (MODEACTION_ALLOW, ch, cl)
    else (MODEACTION_DENY, channel, chanlist)

/-! ## `WriteDatabase` (lines 27-120) -/

/-- The first `fputs`: the fixed header. -/
def header : List Char :=
  "# Permchannels DB\n# This file is autogenerated; any changes will be overwritten!\n<config format=\"compat\">\n".toList

/-- The `for` loop over `chanlist` (lines 54-91): the strings handed to `fputs`, in
order.  `ChanModes` is `Channel::ChanModes(true)`, defined outside this module. -/
def writeRecords (ChanModes : Channel → List Char) : List Channel → Option (List (List Char))
  | [] => some []
  | chan :: rest =>
    if ¬ IsModeSet chan 'P' then writeRecords ChanModes rest
    else
      (serializeLine chan.name chan.topic (ChanModes chan)).bind fun line =>
        (writeRecords ChanModes rest).map fun lines => line :: lines

/-- The library calls of `WriteDatabase` that can fail. -/
inductive Step where
  | create
  | write
  | close
  | remove
  | rename
  deriving DecidableEq, Repr

/-- A file system: the content of each path that names a file. -/
abbrev FS := List Char → Option (List Char)

/-- The file system with path `p` set to `v` (`none`: no such file). -/
def FS.put (fs : FS) (p : List Char) (v : Option (List Char)) : FS :=
  fun q => if q = p then v else fs q

/-- The environment of one call of `WriteDatabase`. -/
structure Sys where
  /-- Whether the module was compiled with `_WIN32` defined. -/
  win32 : Bool
  /-- The library calls that fail during this call. -/
  fails : Step → Bool
  /-- How many bytes reach the temporary file when the write fails. -/
  shortWrite : Nat

/-- The function `WriteDatabase`: the returned flag and the file system after the call.
`fopen(tempname, "w")` creates or truncates the temporary file; `ferror`/`fclose` report a
failed write or close; `remove` fails when told to or when there is no file to remove;
`rename` moves the temporary file onto the target. -/
def WriteDatabase (sys : Sys) (ChanModes : Channel → List Char) (permchannelsconf : List Char)
    (chanlist : List Channel) (fs : FS) : Option (Bool × FS) :=
  if permchannelsconf = [] then
    -- Fake success.
    some (true, fs)
  else
    let tempname := permchannelsconf ++ ".tmp".toList
    if sys.fails Step.create then some (false, fs)
    else
      let fs1 := fs.put tempname (some [])
      (writeRecords ChanModes chanlist).bind fun lines =>
        let payload := header ++ flat lines
        let written := if sys.fails Step.write then payload.take sys.shortWrite else payload
        let fs2 := fs1.put tempname (some written)
        if sys.fails Step.write ∨ sys.fails Step.close then some (false, fs2)
        else if sys.win32 ∧ (sys.fails Step.remove ∨ fs2 permchannelsconf = none) then
          some (false, fs2)
        else
          let fs3 := if sys.win32 then fs2.put permchannelsconf none else fs2
          if sys.fails Step.rename then some (false, fs3)
          else some (true, (fs3.put permchannelsconf (fs3 tempname)).put tempname none)

/-! ## The module and its hooks -/

/-- The fields of `ModulePermanentChannels` (the handler `p` has no state of its own). -/
structure ModulePermanentChannels where
  dirty : Bool

/-- The process-wide state the hooks reach: the static `permchannelsconf`, the channel
list and the file system. -/
structure World where
  permchannelsconf : List Char
  chanlist : List Channel
  fs : FS

/-- The hook `OnRawMode` (lines 272-278); `chan` may be a null pointer.  The hook reads
neither `user`, `param`, `adding` nor `pcnt`. -/
def OnRawMode (m : ModulePermanentChannels) (chan : Option Channel) (mode : Char)
    (param : List Char) (adding : Bool) (pcnt : Int) : ModResult × ModulePermanentChannels :=
  match chan with
  | some c =>
    if IsModeSet c 'P' ∨ mode = 'P' then (MOD_RES_PASSTHRU, { m with dirty := true })
    else (MOD_RES_PASSTHRU, m)
  | none => (MOD_RES_PASSTHRU, m)

/-- The hook `OnPostTopicChange` (lines 280-284). -/
def OnPostTopicChange (m : ModulePermanentChannels) (c : Channel) : ModulePermanentChannels :=
  if IsModeSet c 'P' then { m with dirty := true } else m

/-- The hook `OnBackgroundTimer` (lines 286-291): the module and the world after the
tick, and the return value of each call of `WriteDatabase` it made, in order. -/
def OnBackgroundTimer (sys : Sys) (ChanModes : Channel → List Char) (m : ModulePermanentChannels)
    (w : World) : Option (ModulePermanentChannels × World × List Bool) :=
  if m.dirty then
    (WriteDatabase sys ChanModes w.permchannelsconf w.chanlist w.fs).map fun r =>
      ({ m with dirty := false }, { w with fs := r.2 }, [r.1])
  else some ({ m with dirty := false }, w, [])

/-! ## The dirty triggers as the specification words them -/

/-- In the specification's words: the change is one by which the channel gains or loses
the permanent flag, that is, a change of mode `P` that the gate accepts. -/
def gainsOrLosesP (c : Channel) (mode : Char) (adding : Bool) : Bool :=
  decide (mode = 'P') && decide ((PermChannel.OnModeChange [c] c adding).1 = MODEACTION_ALLOW)

/-- In the specification's words: the dirty flag after a raw mode change. -/
def specRawModeDirty (dirty : Bool) (chan : Option Channel) (mode : Char) (adding : Bool) : Bool :=
  dirty || match chan with
    | some c => IsModeSet c 'P' || gainsOrLosesP c mode adding
    | none => false

/-! ## Configuration, the mode registry and rehydration (`OnRehash`, lines 203-270)

`OnRehash` calls into the core: `FindChan`, the `Channel` constructor, `SetTopic`,
`irc::spacesepstream`, `ModeParser::FindMode` and the handlers of the other modes.  These
are modelled below from the specification. -/

/-- One `permchannels` tag: the values `getString` returns for its three keys. -/
structure ConfigTag where
  channel : List Char
  topic : List Char
  modes : List Char

/-- Modelled from the spec: the part of `ServerInstance->Config` that `OnRehash` reads, the
file name of the `permchanneldb` tag and the ordered list of `permchannels` tags. -/
structure ServerConfig where
  filename : List Char
  permchannels : List ConfigTag

/-- Modelled from the spec: a registered channel mode other than `P`: whether it takes a
parameter when set (`GetNumParams(true)`) and its `OnModeChange`, the generic operation
that sets a mode on the channel it is given; it yields the action and the mode bits and
mode parameters of that channel after the call. -/
structure ModeHandler where
  GetNumParams : Nat
  OnModeChange : Channel → List Char → Bool → ModeAction × (Char → Bool) × (Char → List Char)

/-- Modelled from the spec: what the host provides to `OnRehash`: the current time, the
registered channel modes other than `P`, and whether the post-topic-change notification is
delivered to the module for a topic set during rehydration. -/
structure Host where
  Time : Nat
  modes : Char → Option ModeHandler
  topicNotify : Bool

/-- Modelled from the spec: `ServerInstance->FindChan(name)`, the lookup of an existing
channel by name. -/
def FindChan (chanlist : List Channel) (name : List Char) : Option Channel :=
  chanlist.find? fun c => decide (c.name = name)

/-- Modelled from the spec: the object built by `new Channel(name, ts)`: no topic, no mode
set, no member. -/
def Channel.create (name : List Char) (ts : Nat) : Channel :=
  { name := name, age := ts, topic := [], topicset := 0,
    modes := fun _ => false, params := fun _ => [], users := 0 }

/-- Modelled from the spec: `Channel::SetTopic(NULL, topic, true)`: the topic is stored and
stamped with the current time. -/
def SetTopic (c : Channel) (ntopic : List Char) (now : Nat) : Channel :=
  { c with topic := ntopic, topicset := now }

/-- A handler found by `FindMode`: the module's own `p`, registered for `P` by `init`
(line 170) before the first `OnRehash`, or a handler of another mode. -/
inductive Found where
  | permanent
  | other (h : ModeHandler)

/-- Modelled from the spec: `ServerInstance->Modes->FindMode(letter, MODETYPE_CHANNEL)`. -/
def FindMode (host : Host) (letter : Char) : Option Found :=
  if letter = 'P' then some Found.permanent else (host.modes letter).map Found.other

/-- The value of `mode->GetNumParams(true)`; `p` is built with `PARAM_NONE` (line 129). -/
def GetNumParams (mode : Found) : Nat :=
  match mode with
  | Found.permanent => 0
  | Found.other h => h.GetNumParams

/-- The virtual call `mode->OnModeChange(FakeClient, FakeClient, c, par, adding)`: the
action, the channel object and `chanlist` after the call. -/
def invoke (mode : Found) (chanlist : List Channel) (c : Channel) (par : List Char)
    (adding : Bool) : ModeAction × Channel × List Channel :=
  match mode with
  | Found.permanent => PermChannel.OnModeChange chanlist c adding
  | Found.other h =>
    let r := h.OnModeChange c par adding
    let c' := { c with modes := r.2.1, params := r.2.2 }
    (r.1, c', store chanlist c')

/-- A record of one handler call made by `OnRehash`: the channel, the mode letter, the
parameter passed and the direction. -/
structure Invocation where
  chan : List Char
  mode : Char
  parameter : List Char
  adding : Bool
  deriving DecidableEq, Repr

/-- Modelled from the spec: the tokens of `irc::spacesepstream list(modes)`, the pieces of
the string between spaces, in order. -/
def spaceTokens : List Char → List (List Char)
  | [] => [[]]
  | c :: cs =>
    if c = ' ' then [] :: spaceTokens cs
    else
      match spaceTokens cs with
      | [] => [[c]]
      | tok :: toks => (c :: tok) :: toks

/-- Modelled from the spec: `list.GetToken(token)`: the next token and the rest of the
stream; the token is empty when the stream has none left. -/
def GetToken (list : List (List Char)) : List Char × List (List Char) :=
  match list with
  | [] => ([], [])
  | tok :: toks => (tok, toks)

/-- The loop over `modeseq` (lines 255-267) on the new channel `c`: the channel and
`chanlist` after it, and the handler calls it made, in order.  `par` is assigned on both
branches before every call, so its earlier value is never read. -/
def applyModes (host : Host) :
    List Char → List (List Char) → Channel → List Channel → Channel × List Channel × List Invocation
  | [], _, c, chanlist => (c, chanlist, [])
  | n :: modeseq, list, c, chanlist =>
    match FindMode host n with
    | none => applyModes host modeseq list c chanlist
    | some mode =>
      let tok := if GetNumParams mode ≠ 0 then GetToken list else ([], list)
      let r := invoke mode chanlist c tok.1 true
      let rest := applyModes host modeseq tok.2 r.2.1 r.2.2
      (rest.1, rest.2.1, { chan := c.name, mode := n, parameter := tok.1, adding := true } :: rest.2.2)

/-- Lines 230-242 for one tag: `new Channel(channel, Time())`, which enters the channel in
`chanlist` (it takes the last place), and for a non-empty topic `SetTopic`, the
notification of the topic change when the host delivers it, and the sentinel topic
timestamp 42. -/
def createChannel (host : Host) (m : ModulePermanentChannels) (chanlist : List Channel)
    (tag : ConfigTag) : ModulePermanentChannels × Channel × List Channel :=
  let c := Channel.create tag.channel host.Time
  let chanlist := chanlist ++ [c]
  if tag.topic ≠ [] then
    let c1 := SetTopic c tag.topic host.Time
    let m1 := if host.topicNotify then OnPostTopicChange m c1 else m
    let c2 := { c1 with topicset := 42 }
    (m1, c2, store chanlist c2)
  else (m, c, chanlist)

/-- The body of the loop over the `permchannels` tags (lines 215-268) for one tag, on the
module, `chanlist` and the list of handler calls made so far. -/
def rehashTag (host : Host) (s : ModulePermanentChannels × List Channel × List Invocation)
    (tag : ConfigTag) : ModulePermanentChannels × List Channel × List Invocation :=
  if tag.channel = [] then s
  else
    match FindChan s.2.1 tag.channel with
    | some _ => s
    | none =>
      let t := createChannel host s.1 s.2.1 tag
      if tag.modes = [] then (t.1, t.2.2, s.2.2)
      else
        let tok := GetToken (spaceTokens tag.modes)
        let r := applyModes host tok.1 tok.2 t.2.1 t.2.2
        (t.1, r.2.1, s.2.2 ++ r.2.2)

/-- The hook `OnRehash` (lines 203-270): the module and the world after the call, and the
handler calls it made, in order. -/
def OnRehash (host : Host) (config : ServerConfig) (m : ModulePermanentChannels) (w : World) :
    ModulePermanentChannels × World × List Invocation :=
  let r := config.permchannels.foldl (rehashTag host) (m, w.chanlist, [])
  (r.1, { w with permchannelsconf := config.filename, chanlist := r.2.1 }, r.2.2)

/-- Modelled from the spec: the handler of a parameterless flag mode such as `n` or `t`:
it sets or clears the bit of its letter and accepts every request. -/
def flagMode (letter : Char) : ModeHandler :=
  { GetNumParams := 0
    OnModeChange := fun c _ adding =>
      (MODEACTION_ALLOW, (fun x => if x = letter then adding else c.modes x), c.params) }

/-! ## The teardown sweep of `cull` (lines 184-198) -/

/-- The locals and effects of the sweep: `chanlist`, the position of `iter` in it, and the
channels for which `OnChannelDelete` was raised, in order. -/
structure SweepState where
  chanlist : List Channel
  iter : Nat
  deleted : List Channel

/-- One execution of the body of `while (iter != chanlist->end())`; erasing the entry at
the old position leaves the advanced iterator at the same index. -/
def sweepBody (s : SweepState) : SweepState :=
  match s.chanlist.get? s.iter with
  | none => s
  | some c =>
    if GetUserCounter c = 0 then
      { chanlist := s.chanlist.eraseIdx s.iter, iter := s.iter, deleted := s.deleted ++ [c] }
    else { s with iter := s.iter + 1 }

/-- The `while` loop of `cull`, with a bound on the number of iterations; `none` when the
bound is reached before `iter` reaches the end. -/
def sweepLoop : Nat → SweepState → Option SweepState
  | 0, s => if s.iter < s.chanlist.length then none else some s
  | fuel + 1, s => if s.iter < s.chanlist.length then sweepLoop fuel (sweepBody s) else some s

/-- The sweep of `cull` from `iter = chanlist->begin()`; every iteration brings `iter`
one entry closer to the end, so `chanlist.length` iterations are always enough. -/
def cullSweep (chanlist : List Channel) : Option SweepState :=
  sweepLoop chanlist.length { chanlist := chanlist, iter := 0, deleted := [] }

/-! ## The module as a transition system -/

/-- The calls the host makes into the module. -/
inductive Event where
  | rehash (host : Host) (config : ServerConfig)
  | rawMode (chan : Option Channel) (mode : Char) (param : List Char) (adding : Bool) (pcnt : Int)
  | postTopicChange (c : Channel)
  | backgroundTimer (sys : Sys) (ChanModes : Channel → List Char)
  | channelPreDelete (c : Channel)
  | gate (channel : Channel) (adding : Bool)

/-- The state after the module has served one call: `OnRehash`, `OnRawMode`,
`OnPostTopicChange`, `OnBackgroundTimer`, `OnChannelPreDelete`, or
`PermChannel::OnModeChange`. -/
def step (ev : Event) (s : ModulePermanentChannels × World) :
    Option (ModulePermanentChannels × World) :=
  match ev with
  | Event.rehash host config =>
    let r := OnRehash host config s.1 s.2
    some (r.1, r.2.1)
  | Event.rawMode chan mode param adding pcnt =>
    some ((OnRawMode s.1 chan mode param adding pcnt).2, s.2)
  | Event.postTopicChange c => some (OnPostTopicChange s.1 c, s.2)
  | Event.backgroundTimer sys ChanModes =>
    (OnBackgroundTimer sys ChanModes s.1 s.2).map fun r => (r.1, r.2.1)
  | Event.channelPreDelete c =>
    let _ := OnChannelPreDelete c
    some s
  | Event.gate channel adding =>
    some (s.1, { s.2 with chanlist := (PermChannel.OnModeChange s.2.chanlist channel adding).2.2 })

/-! ## The snapshot layout as the specification words it -/

/-- Modelled from the spec: `Channel::ChanModes(true)`, the render of the mode state as a
compact string: the letters that are set, in the order of their codes from `A` on, then
each non-empty parameter after a space. -/
def Channel.ChanModes (c : Channel) : List Char :=
  let letters := ((List.range 64).map fun n => Char.ofNat (n + 65)).filter fun l => c.modes l
  letters ++ flat (letters.map fun l => if c.params l = [] then [] else ' ' :: c.params l)

/-- The newline-terminated lines of a text (a last line without newline is kept). -/
def splitLines : List Char → List (List Char)
  | [] => []
  | c :: cs =>
    if c = '\n' then [] :: splitLines cs
    else
      match splitLines cs with
      | [] => [[c]]
      | l :: ls => (c :: l) :: ls

/-- In the specification's words: a record line, `<permchannels channel=` up to `">`. -/
def isRecordLine (l : List Char) : Bool :=
  "<permchannels channel=\"".toList.isPrefixOf l && "\">".toList.isSuffixOf l

/-- In the specification's words: the first line is a comment and every subsequent line is
a record line. -/
def specLayout (payload : List Char) : Bool :=
  match splitLines payload with
  | [] => false
  | first :: rest => "#".toList.isPrefixOf first && rest.all isRecordLine

/-! ## Lemmas on C strings and the line buffer -/

theorem mem_cstr_ne_nul (s : List Char) (c : Char) (h : c ∈ cstr s) : c ≠ NUL := by
  have := List.mem_takeWhile_imp h
  simpa using this

theorem cstr_eq_self (s : List Char) (h : NUL ∉ s) : cstr s = s := by
  unfold cstr
  rw [List.takeWhile_eq_self_iff]
  intro c hc
  have : c ≠ NUL := fun e => h (e ▸ hc)
  simpa using this

theorem charAt_split (s pre suf : List Char) (h : cstr s = pre ++ suf) :
    charAt s pre.length = suf.headD NUL := by
  induction s generalizing pre with
  | nil =>
    simp [cstr] at h
    obtain ⟨rfl, rfl⟩ := h
    simp [charAt]
  | cons a s ih =>
    by_cases ha : a = NUL
    · subst ha
      simp [cstr, List.takeWhile] at h
      obtain ⟨rfl, rfl⟩ := h
      simp [charAt]
    · have hb : (a != NUL) = true := by simpa using ha
      have hc : cstr (a :: s) = a :: cstr s := by
        simp [cstr, List.takeWhile_cons, hb]
      rw [hc] at h
      cases pre with
      | nil =>
        simp at h
        subst h
        simp [charAt]
      | cons b pre =>
        simp at h
        obtain ⟨rfl, h⟩ := h
        have := ih pre h
        simpa [charAt] using this

theorem set_end {α : Type} (pre : List α) (j x : α) (junk : List α) :
    (pre ++ j :: junk).set pre.length x = pre ++ x :: junk := by
  induction pre with
  | nil => simp
  | cons a pre ih => simp

theorem write_end (out : List Char) (j : Option Char) (junk : LineBuf) (c : Char) (i : Int)
    (hi : i = out.length) (hlen : (out.map some ++ j :: junk).length = 1024) :
    LineBuf.write (out.map some ++ j :: junk) i c = some ((out ++ [c]).map some ++ junk) := by
  subst hi
  have h1 : out.length < 1024 := by
    simp at hlen
    omega
  unfold LineBuf.write
  have hcond : (0 : Int) ≤ (out.length : Int) ∧ (out.length : Int) < 1024 := by
    constructor <;> omega
  rw [if_pos hcond]
  have := set_end (out.map some) j (some c) junk
  simp

theorem readCStr_written (out : List Char) (junk : LineBuf) (h : NUL ∉ out) :
    LineBuf.readCStr (out.map some ++ some NUL :: junk) = some out := by
  induction out with
  | nil => simp [LineBuf.readCStr]
  | cons a out ih =>
    have ha : a ≠ NUL := fun e => h (by simp [e])
    have hout : NUL ∉ out := fun e => h (by simp [e])
    simp [LineBuf.readCStr, ha, ih hout]

/-! ## Lemmas on tokens -/

theorem goodTok_quote : GoodTok ['"'] := by
  refine ⟨by simp, by simp, ?_⟩
  simp [NUL]

theorem goodTok_emit (c : Char) (h : c ≠ NUL) : GoodTok (emit c) := by
  have h' : ¬ NUL = c := fun e => h e.symm
  unfold emit
  split
  · refine ⟨by simp, by simp, ?_⟩
    simp [h']
    simp [NUL]
  · refine ⟨by simp, by simp, ?_⟩
    simp [h']

theorem goodTok_tokensOf (s : List Char) : ∀ tok ∈ tokensOf s, GoodTok tok := by
  intro tok h
  simp only [tokensOf, List.mem_append, List.mem_map, List.mem_singleton] at h
  rcases h with ⟨c, hc, rfl⟩ | rfl
  · exact goodTok_emit c (mem_cstr_ne_nul s c hc)
  · exact goodTok_quote

theorem goodTok_allTokens (its : List (List Char)) : ∀ tok ∈ allTokens its, GoodTok tok := by
  induction its with
  | nil => simp [allTokens]
  | cons s rest ih =>
    intro tok h
    simp only [allTokens, List.mem_append] at h
    rcases h with h | h
    · exact goodTok_tokensOf s tok h
    · exact ih tok h

theorem pending_zero (its : List (List Char)) (item : Nat) :
    pending its item 0 = allTokens (its.drop item) := by
  unfold pending
  cases its.drop item with
  | nil => simp [allTokens]
  | cons s rest => simp [allTokens, tokensOf]

theorem pending_done (its : List (List Char)) (item ipos : Nat) (h : its.length ≤ item) :
    pending its item ipos = [] := by
  unfold pending
  rw [List.drop_eq_nil_of_le h]

theorem pending_step (its : List (List Char)) (item ipos : Nat) (h : item < its.length)
    (hip : ipos ≤ (cstr (its.getD item [])).length) :
    (charAt (its.getD item []) ipos = NUL
        ∧ pending its item ipos = ['"'] :: pending its (item + 1) 0)
    ∨ (charAt (its.getD item []) ipos ≠ NUL
        ∧ ipos + 1 ≤ (cstr (its.getD item [])).length
        ∧ pending its item ipos
            = emit (charAt (its.getD item []) ipos) :: pending its item (ipos + 1)) := by
  have hd : its.drop item = its.getD item [] :: its.drop (item + 1) := by
    rw [List.getD_eq_getElem its [] h]
    exact List.drop_eq_getElem_cons h
  generalize its.getD item [] = str at hd hip ⊢
  have hsplit : cstr str = (cstr str).take ipos ++ (cstr str).drop ipos :=
    (List.take_append_drop ipos (cstr str)).symm
  have hlen : ((cstr str).take ipos).length = ipos := by
    rw [List.length_take]
    omega
  have hch := charAt_split str _ _ hsplit
  rw [hlen] at hch
  cases hdr : (cstr str).drop ipos with
  | nil =>
    left
    rw [hdr] at hch
    refine ⟨by simpa using hch, ?_⟩
    rw [pending_zero]
    simp [pending, hd, hdr]
  | cons c rest =>
    right
    rw [hdr] at hch
    simp only [List.headD_cons] at hch
    have hmem : c ∈ cstr str := by
      have : c ∈ (cstr str).drop ipos := by simp [hdr]
      exact List.mem_of_mem_drop this
    have hlt : ipos < (cstr str).length := by
      by_contra hge
      have : (cstr str).drop ipos = [] := List.drop_eq_nil_of_le (by omega)
      simp [this] at hdr
    have hnext : (cstr str).drop (ipos + 1) = rest := by
      have : (cstr str).drop (ipos + 1) = ((cstr str).drop ipos).drop 1 := by
        simp [List.drop_drop, Nat.add_comm]
      rw [this, hdr]
      rfl
    refine ⟨?_, by omega, ?_⟩
    · rw [hch]
      exact mem_cstr_ne_nul str c hmem
    · rw [hch]
      simp [pending, hd, hdr, hnext]

theorem goodTok_pending (its : List (List Char)) (item ipos : Nat) :
    ∀ tok ∈ pending its item ipos, GoodTok tok := by
  intro tok h
  unfold pending at h
  cases hd : its.drop item with
  | nil => simp [hd] at h
  | cons s rest =>
    simp only [hd, List.mem_append, List.mem_map, List.mem_singleton] at h
    rcases h with (⟨c, hc, rfl⟩ | rfl) | h
    · exact goodTok_emit c (mem_cstr_ne_nul s c (List.mem_of_mem_drop hc))
    · exact goodTok_quote
    · exact goodTok_allTokens rest tok h

/-! ## Lemmas on `run` -/

theorem run_stop (toks : List (List Char)) (out : List Char) (h : 1022 ≤ out.length) :
    run toks out = out := by
  cases toks with
  | nil => rfl
  | cons tok toks =>
    have : ¬ out.length < 1022 := by omega
    simp [run, this]

theorem run_extends (toks : List (List Char)) (out : List Char) :
    ∃ ext, run toks out = out ++ ext := by
  induction toks generalizing out with
  | nil => exact ⟨[], by simp [run]⟩
  | cons tok toks ih =>
    by_cases h : out.length < 1022
    · obtain ⟨ext, he⟩ := ih (out ++ tok)
      exact ⟨tok ++ ext, by simp [run, h, he]⟩
    · exact ⟨[], by simp [run, h]⟩

theorem run_length_le (toks : List (List Char)) (out : List Char)
    (hg : ∀ tok ∈ toks, GoodTok tok) (h : out.length ≤ 1023) :
    (run toks out).length ≤ 1023 := by
  induction toks generalizing out with
  | nil => simpa [run] using h
  | cons tok toks ih =>
    by_cases hlt : out.length < 1022
    · have h2 := (hg tok (by simp)).2.1
      have := ih (out ++ tok) (fun t ht => hg t (by simp [ht])) (by simp; omega)
      simpa [run, hlt] using this
    · simpa [run, hlt] using h

theorem run_nul_free (toks : List (List Char)) (out : List Char)
    (hg : ∀ tok ∈ toks, GoodTok tok) (h : NUL ∉ out) : NUL ∉ run toks out := by
  induction toks generalizing out with
  | nil => simpa [run] using h
  | cons tok toks ih =>
    by_cases hlt : out.length < 1022
    · have h2 := (hg tok (by simp)).2.2
      have := ih (out ++ tok) (fun t ht => hg t (by simp [ht])) (by simp [h, h2])
      simpa [run, hlt] using this
    · simpa [run, hlt] using h

theorem run_all (toks : List (List Char)) (out : List Char)
    (hg : ∀ tok ∈ toks, GoodTok tok) (h : out.length + (flat toks).length ≤ 1022) :
    run toks out = out ++ flat toks := by
  induction toks generalizing out with
  | nil => simp [run, flat]
  | cons tok toks ih =>
    have h1 := (hg tok (by simp)).1
    have hpos : 0 < tok.length := List.length_pos.mpr h1
    simp only [flat, List.length_append] at h
    have hlt : out.length < 1022 := by omega
    have := ih (out ++ tok) (fun t ht => hg t (by simp [ht])) (by simp; omega)
    simp [run, hlt, this, flat]

/-! ## The loop refines `run` -/

theorem loop_run (its : List (List Char)) (hits : its.length = 7) :
    ∀ (fuel : Nat) (out : List Char) (junk : LineBuf) (lpos : Int) (item ipos : Nat),
      lpos = out.length →
      (out.map some ++ junk).length = 1024 →
      1022 ≤ out.length + fuel →
      ipos ≤ (cstr (its.getD item [])).length →
      ∃ s junk', loop its fuel { line := out.map some ++ junk, lpos := lpos, item := item, ipos := ipos }
            = some s
        ∧ s.line = (run (pending its item ipos) out).map some ++ junk'
        ∧ s.lpos = (run (pending its item ipos) out).length
        ∧ s.line.length = 1024 := by
  intro fuel
  induction fuel with
  | zero =>
    intro out junk lpos item ipos hl hlen hfuel _
    have hge : 1022 ≤ out.length := by omega
    have hc : ¬ (lpos < 1022 ∧ item < 7) := by
      intro h
      omega
    refine ⟨_, junk, by rw [loop, if_neg hc], ?_, ?_, ?_⟩
    · simp [run_stop _ _ hge]
    · simp [run_stop _ _ hge, hl]
    · exact hlen
  | succ fuel ih =>
    intro out junk lpos item ipos hl hlen hfuel hip
    by_cases hc : lpos < 1022 ∧ item < 7
    · obtain ⟨hlt, hitem⟩ := hc
      have hlt' : out.length < 1022 := by omega
      have hjl : junk.length = 1024 - out.length := by
        simp at hlen
        omega
      obtain ⟨j1, junk1, rfl⟩ : ∃ j1 junk1, junk = j1 :: junk1 := by
        cases junk with
        | nil => simp at hjl; omega
        | cons a b => exact ⟨a, b, rfl⟩
      obtain ⟨j2, junk2, rfl⟩ : ∃ j2 junk2, junk1 = j2 :: junk2 := by
        cases junk1 with
        | nil => simp at hjl; omega
        | cons a b => exact ⟨a, b, rfl⟩
      have hw1 : ∀ c, LineBuf.write (out.map some ++ j1 :: j2 :: junk2) lpos c
          = some ((out ++ [c]).map some ++ j2 :: junk2) :=
        fun c => write_end out j1 (j2 :: junk2) c lpos hl hlen
      have hlen1 : ∀ c, ((out ++ [c]).map some ++ j2 :: junk2).length = 1024 := by
        intro c
        simp at hlen ⊢
        omega
      have hw2 : ∀ c d, LineBuf.write ((out ++ [c]).map some ++ j2 :: junk2) (lpos + 1) d
          = some ((out ++ [c] ++ [d]).map some ++ junk2) :=
        fun c d => write_end (out ++ [c]) j2 junk2 d (lpos + 1) (by simp; omega) (hlen1 c)
      have hlen2 : ∀ c d, ((out ++ [c] ++ [d]).map some ++ junk2).length = 1024 := by
        intro c d
        simp at hlen ⊢
        omega
      rcases pending_step its item ipos (by omega) hip with ⟨hnul, hp⟩ | ⟨hnn, hip', hp⟩
      · -- terminator: store the quote and hop to the next item
        obtain ⟨s, junk', hs, h1, h2, h3⟩ := ih (out ++ ['"']) (j2 :: junk2) (lpos + 1) (item + 1) 0
          (by simp; omega) (hlen1 _) (by simp; omega) (Nat.zero_le _)
        refine ⟨s, junk', ?_, ?_, ?_, h3⟩
        · simp only [loop, if_pos (And.intro hlt hitem), loopBody, hnul, if_true, hw1,
            Option.map_some', Option.some_bind]
          exact hs
        · rw [hp, h1]
          simp [run, hlt']
        · rw [hp, h2]
          simp [run, hlt']
      · by_cases hsp : charAt (its.getD item []) ipos = '\\' ∨ charAt (its.getD item []) ipos = '"'
        · -- escaped character: two stores
          obtain ⟨s, junk', hs, h1, h2, h3⟩ := ih (out ++ ['\\'] ++ [charAt (its.getD item []) ipos])
            junk2 (lpos + 2) item (ipos + 1) (by simp; omega) (hlen2 _ _) (by simp; omega) hip'
          have he : emit (charAt (its.getD item []) ipos) = ['\\', charAt (its.getD item []) ipos] := by
            rw [emit, if_pos hsp]
          refine ⟨s, junk', ?_, ?_, ?_, h3⟩
          · simp only [loop, if_pos (And.intro hlt hitem), loopBody, hnn, if_false, if_pos hsp, hw1,
              hw2, Option.map_some', Option.some_bind]
            exact hs
          · rw [hp, h1, he]
            simp [run, hlt']
          · rw [hp, h2, he]
            simp [run, hlt']
        · -- ordinary character: one store
          obtain ⟨s, junk', hs, h1, h2, h3⟩ := ih (out ++ [charAt (its.getD item []) ipos])
            (j2 :: junk2) (lpos + 1) item (ipos + 1) (by simp; omega) (hlen1 _) (by simp; omega) hip'
          have he : emit (charAt (its.getD item []) ipos) = [charAt (its.getD item []) ipos] := by
            rw [emit, if_neg hsp]
          refine ⟨s, junk', ?_, ?_, ?_, h3⟩
          · simp only [loop, if_pos (And.intro hlt hitem), loopBody, hnn, if_false, if_neg hsp, hw1,
              Option.map_some', Option.some_bind]
            exact hs
          · rw [hp, h1, he]
            simp [run, hlt']
          · rw [hp, h2, he]
            simp [run, hlt']
    · have hrun : run (pending its item ipos) out = out := by
        by_cases hge : 1022 ≤ out.length
        · exact run_stop _ _ hge
        · have : its.length ≤ item := by
            by_contra hlt
            exact hc ⟨by omega, by omega⟩
          rw [pending_done its item ipos this]
          rfl
      refine ⟨_, junk, by rw [loop, if_neg hc], ?_, ?_, ?_⟩
      · simp [hrun]
      · simp [hrun, hl]
      · exact hlen

/-! ## The line written for one channel -/

theorem run_ne_nil (toks : List (List Char)) (hg : ∀ tok ∈ toks, GoodTok tok) (hne : toks ≠ []) :
    run toks [] ≠ [] := by
  cases toks with
  | nil => exact absurd rfl hne
  | cons tok rest =>
    obtain ⟨ext, he⟩ := run_extends rest ([] ++ tok)
    have h1 := (hg tok (by simp)).1
    have : run (tok :: rest) [] = [] ++ tok ++ ext := by
      rw [← he]
      simp [run]
    rw [this]
    simp [h1]

theorem allTokens_cons_ne_nil (s : List Char) (r : List (List Char)) : allTokens (s :: r) ≠ [] := by
  simp [allTokens, tokensOf]

theorem stored_ne_nil (n t m : List Char) : stored n t m ≠ [] :=
  run_ne_nil _ (goodTok_allTokens _) (allTokens_cons_ne_nil _ _)

theorem stored_length_le (n t m : List Char) : (stored n t m).length ≤ 1023 :=
  run_length_le _ _ (goodTok_allTokens _) (by simp)

theorem stored_nul_free (n t m : List Char) : NUL ∉ stored n t m :=
  run_nul_free _ _ (goodTok_allTokens _) (by simp)

theorem serializeLine_loop (n t m : List Char) :
    ∃ s junk, loop (items n t m) 1022 { line := LineBuf.fresh, lpos := 0, item := 0, ipos := 0 } = some s
      ∧ s.line = (stored n t m).map some ++ junk
      ∧ s.lpos = (stored n t m).length
      ∧ s.line.length = 1024 := by
  have h := loop_run (items n t m) rfl 1022 [] LineBuf.fresh 0 0 0 rfl
    (by simp only [List.map_nil, List.nil_append, LineBuf.fresh, List.length_replicate])
    (by simp) (Nat.zero_le _)
  rw [pending_zero] at h
  exact h

theorem serializeLine_eq (n t m : List Char) :
    serializeLine n t m = some (stored n t m).dropLast := by
  obtain ⟨s, junk, hs, hline, hlpos, hlen⟩ := serializeLine_loop n t m
  have hne := stored_ne_nil n t m
  have hsplit : stored n t m = (stored n t m).dropLast ++ [(stored n t m).getLast hne] :=
    (List.dropLast_append_getLast hne).symm
  have hnul : NUL ∉ (stored n t m).dropLast := fun h =>
    stored_nul_free n t m (List.mem_of_mem_dropLast h)
  have hline' : s.line = (stored n t m).dropLast.map some
      ++ some ((stored n t m).getLast hne) :: junk := by
    rw [hline]
    conv_lhs => rw [hsplit]
    simp
  have hidx : s.lpos - 1 = ((stored n t m).dropLast.length : Int) := by
    rw [hlpos]
    have : 0 < (stored n t m).length := List.length_pos.mpr hne
    simp
    omega
  have hw := write_end (stored n t m).dropLast (some ((stored n t m).getLast hne)) junk NUL
    (s.lpos - 1) hidx (by rw [← hline']; exact hlen)
  unfold serializeLine
  rw [hs, Option.some_bind, hline', hw, Option.some_bind]
  have := readCStr_written (stored n t m).dropLast junk hnul
  simpa using this

/-! ## The stored bytes and the ideal line -/

theorem flat_append (a b : List (List Char)) : flat (a ++ b) = flat a ++ flat b := by
  induction a with
  | nil => simp [flat]
  | cons x a ih => simp [flat, ih]

theorem flat_map_emit (s : List Char) : flat (s.map emit) = esc s := by
  induction s with
  | nil => simp [flat, esc]
  | cons c s ih =>
    by_cases h : c = '\\' ∨ c = '"'
    · simp only [List.map_cons, flat, esc, emit, if_pos h, ih]
      rfl
    · simp only [List.map_cons, flat, esc, emit, if_neg h, ih]
      rfl

theorem flat_tokensOf (s : List Char) : flat (tokensOf s) = esc (cstr s) ++ ['"'] := by
  simp [tokensOf, flat_append, flat_map_emit, flat]

theorem flat_allTokens_cons (s : List Char) (r : List (List Char)) :
    flat (allTokens (s :: r)) = esc (cstr s) ++ ['"'] ++ flat (allTokens r) := by
  simp [allTokens, flat_append, flat_tokensOf]

theorem flat_allTokens_items (n t m : List Char) :
    flat (allTokens (items n t m)) = idealLine (cstr n) (cstr t) (cstr m) ++ ['"'] := by
  have k0 : "<permchannels channel=\"".toList = esc (cstr "<permchannels channel=".toList) ++ ['"'] := by
    decide
  have k2 : "\" topic=\"".toList = ['"'] ++ esc (cstr " topic=".toList) ++ ['"'] := by decide
  have k4 : "\" modes=\"".toList = ['"'] ++ esc (cstr " modes=".toList) ++ ['"'] := by decide
  have k6 : "\">\n".toList = ['"'] ++ esc (cstr ">\n".toList) := by decide
  have hnil : flat (allTokens []) = [] := rfl
  rw [idealLine, k0, k2, k4, k6, items]
  simp only [flat_allTokens_cons, hnil, List.append_assoc, List.append_nil]

theorem stored_of_fits (n t m : List Char)
    (h : (idealLine (cstr n) (cstr t) (cstr m)).length ≤ 1021) :
    stored n t m = idealLine (cstr n) (cstr t) (cstr m) ++ ['"'] := by
  unfold stored
  rw [run_all _ _ (goodTok_allTokens _) (by rw [flat_allTokens_items]; simp; omega)]
  simp [flat_allTokens_items]

theorem serializeLine_of_fits (n t m : List Char)
    (h : (idealLine (cstr n) (cstr t) (cstr m)).length ≤ 1021) :
    serializeLine n t m = some (idealLine (cstr n) (cstr t) (cstr m)) := by
  rw [serializeLine_eq, stored_of_fits n t m h]
  simp

/-! ## Escaping and its inverse -/

theorem esc_eq_nil (s : List Char) (h : esc s = []) : s = [] := by
  cases s with
  | nil => rfl
  | cons c cs =>
    unfold esc at h
    split at h <;> simp at h

theorem unesc_esc (s : List Char) : unesc (esc s) = s := by
  induction s with
  | nil => rfl
  | cons c cs ih =>
    by_cases h : c = '\\' ∨ c = '"'
    · rw [esc, if_pos h, unesc, if_pos rfl, ih]
    · have hc : c ≠ '\\' := fun e => h (Or.inl e)
      rw [esc, if_neg h]
      cases he : esc cs with
      | nil =>
        rw [esc_eq_nil cs he]
        simp [unesc, hc]
      | cons d r =>
        rw [unesc, if_neg hc, ← he, ih]

/-! ## The record loop of `WriteDatabase` -/

theorem writeRecords_forall₂ (ChanModes : Channel → List Char) (chanlist : List Channel) :
    ∃ recs, writeRecords ChanModes chanlist = some recs
      ∧ List.Forall₂ (fun c line => serializeLine c.name c.topic (ChanModes c) = some line)
          (chanlist.filter fun c => IsModeSet c 'P') recs := by
  induction chanlist with
  | nil => exact ⟨[], rfl, by simp⟩
  | cons chan rest ih =>
    obtain ⟨recs, hr, hf⟩ := ih
    by_cases hP : IsModeSet chan 'P' = true
    · refine ⟨(stored chan.name chan.topic (ChanModes chan)).dropLast :: recs, ?_, ?_⟩
      · simp [writeRecords, hP, serializeLine_eq, hr]
      · have hfil : (chan :: rest).filter (fun c => IsModeSet c 'P')
            = chan :: rest.filter (fun c => IsModeSet c 'P') := by
          simp [List.filter_cons, hP]
        rw [hfil]
        exact List.Forall₂.cons (serializeLine_eq _ _ _) hf
    · refine ⟨recs, ?_, ?_⟩
      · simp [writeRecords, hP, hr]
      · have hfil : (chan :: rest).filter (fun c => IsModeSet c 'P')
            = rest.filter (fun c => IsModeSet c 'P') := by
          simp [List.filter_cons, hP]
        rw [hfil]
        exact hf

/-! ## The channel list under `store` and `DelUser` -/

theorem store_names (chanlist : List Channel) (c : Channel) :
    (store chanlist c).map Channel.name = chanlist.map Channel.name := by
  induction chanlist with
  | nil => rfl
  | cons x rest ih =>
    simp only [store, List.map_cons] at ih ⊢
    rw [ih]
    by_cases h : x.name = c.name
    · simp [h]
    · simp [h]

theorem store_others (chanlist : List Channel) (c : Channel) :
    (store chanlist c).filter (fun x => decide (x.name ≠ c.name))
      = chanlist.filter (fun x => decide (x.name ≠ c.name)) := by
  induction chanlist with
  | nil => rfl
  | cons x rest ih =>
    simp only [store, List.map_cons] at ih ⊢
    by_cases h : x.name = c.name
    · simpa [h, List.filter_cons] using ih
    · simpa [h, List.filter_cons] using ih

theorem mem_store_same (chanlist : List Channel) (c x : Channel) (hx : x ∈ store chanlist c)
    (hn : x.name = c.name) : x = c := by
  simp only [store, List.mem_map] at hx
  obtain ⟨y, _, hy⟩ := hx
  by_cases h : y.name = c.name
  · rw [if_pos h] at hy
    exact hy.symm
  · rw [if_neg h] at hy
    subst hy
    exact absurd hn h

theorem mem_store_self (chanlist : List Channel) (c c' : Channel) (hc : c ∈ chanlist)
    (hn : c'.name = c.name) : c' ∈ store chanlist c' := by
  simp only [store, List.mem_map]
  exact ⟨c, hc, by simp [hn]⟩

theorem setMode_name (c : Channel) (mode : Char) (v : Bool) : (SetMode c mode v).name = c.name :=
  rfl

theorem isModeSet_setMode_same (c : Channel) (mode : Char) (v : Bool) :
    IsModeSet (SetMode c mode v) mode = v := by
  simp [IsModeSet, SetMode]

theorem isModeSet_setMode_other (c : Channel) (mode mode' : Char) (v : Bool) (h : mode' ≠ mode) :
    IsModeSet (SetMode c mode v) mode' = IsModeSet c mode' := by
  simp [IsModeSet, SetMode, h]

theorem delUser_unflagged (chanlist : List Channel) (c : Channel) (h : IsModeSet c 'P' = false) :
    DelUser chanlist c
      = if c.users = 0 then chanlist.filter (fun x => decide (x.name ≠ c.name)) else chanlist := by
  simp [DelUser, OnChannelPreDelete, GetUserCounter, h]

theorem onModeChange_add (chanlist : List Channel) (channel : Channel)
    (h : IsModeSet channel 'P' = false) :
    PermChannel.OnModeChange chanlist channel true
      = (MODEACTION_ALLOW, SetMode channel 'P' true, store chanlist (SetMode channel 'P' true)) := by
  simp [PermChannel.OnModeChange, h]

theorem onModeChange_add_set (chanlist : List Channel) (channel : Channel)
    (h : IsModeSet channel 'P' = true) :
    PermChannel.OnModeChange chanlist channel true = (MODEACTION_DENY, channel, chanlist) := by
  simp [PermChannel.OnModeChange, h]

theorem onModeChange_remove (chanlist : List Channel) (channel : Channel)
    (h : IsModeSet channel 'P' = true) :
    PermChannel.OnModeChange chanlist channel false
      = (MODEACTION_ALLOW, SetMode channel 'P' false,
          if channel.users = 0 then
            (store chanlist (SetMode channel 'P' false)).filter
              (fun x => decide (x.name ≠ channel.name))
          else store chanlist (SetMode channel 'P' false)) := by
  have hd := delUser_unflagged (store chanlist (SetMode channel 'P' false))
    (SetMode channel 'P' false) (isModeSet_setMode_same _ _ _)
  have hu : (SetMode channel 'P' false).users = channel.users := rfl
  rw [hu, setMode_name] at hd
  by_cases h0 : channel.users = 0
  · rw [if_pos h0] at hd
    simp only [PermChannel.OnModeChange, h, GetUserCounter, hu, h0, hd, if_true,
      Bool.false_eq_true, if_false]
  · rw [if_neg h0] at hd
    simp only [PermChannel.OnModeChange, h, GetUserCounter, hu, h0, if_true,
      Bool.false_eq_true, if_false]

theorem onModeChange_remove_unset (chanlist : List Channel) (channel : Channel)
    (h : IsModeSet channel 'P' = false) :
    PermChannel.OnModeChange chanlist channel false = (MODEACTION_DENY, channel, chanlist) := by
  simp [PermChannel.OnModeChange, h]

theorem writeDatabase_total (sys : Sys) (ChanModes : Channel → List Char) (conf : List Char)
    (chanlist : List Channel) (fs : FS) :
    ∃ ok fs', WriteDatabase sys ChanModes conf chanlist fs = some (ok, fs') := by
  obtain ⟨recs, hrecs, _⟩ := writeRecords_forall₂ ChanModes chanlist
  have h : ∃ r, WriteDatabase sys ChanModes conf chanlist fs = some r := by
    unfold WriteDatabase
    simp only [hrecs, Option.some_bind]
    repeat' split
    all_goals exact ⟨_, rfl⟩
  obtain ⟨⟨ok, fs'⟩, h⟩ := h
  exact ⟨ok, fs', h⟩

/-! ## Properties of the module (C1 to C10) -/

/-- C1: for every channel with name `n`, topic `t` and mode string `m` (read as C strings,
`cstr`, which is the identity on a string without NUL), if the ideal line
`<permchannels channel="esc n" topic="esc t" modes="esc m">\n` has length at most 1021,
then the line the serializer loop writes is exactly that line. -/
theorem C1_line_is_ideal (n t m : List Char)
    (h : (idealLine (cstr n) (cstr t) (cstr m)).length ≤ 1021) :
    serializeLine n t m = some (idealLine (cstr n) (cstr t) (cstr m)) :=
  serializeLine_of_fits n t m h

/-- C1 at `#help`, `Ask here`, `nt`: the hypothesis holds and the line is the expected one. -/
theorem C1_line_is_ideal_witness :
    (idealLine (cstr "#help".toList) (cstr "Ask here".toList) (cstr "nt".toList)).length ≤ 1021
    ∧ serializeLine "#help".toList "Ask here".toList "nt".toList
        = some "<permchannels channel=\"#help\" topic=\"Ask here\" modes=\"nt\">\n".toList :=
  ⟨by decide,
   (C1_line_is_ideal "#help".toList "Ask here".toList "nt".toList (by decide)).trans (by decide)⟩

/-- C2: when no truncation occurs, each field of the line the serializer writes is the
escaped content of the channel's field (a backslash before every backslash and double
quote, every other character copied), and un-escaping by the inverse rule (drop a
backslash, take the next character literally) gives every string back. -/
theorem C2_escape_roundtrip (n t m : List Char)
    (h : (idealLine (cstr n) (cstr t) (cstr m)).length ≤ 1021) :
    serializeLine n t m
        = some ("<permchannels channel=\"".toList ++ esc (cstr n) ++ "\" topic=\"".toList
            ++ esc (cstr t) ++ "\" modes=\"".toList ++ esc (cstr m) ++ "\">\n".toList)
      ∧ unesc (esc (cstr n)) = cstr n ∧ unesc (esc (cstr t)) = cstr t
      ∧ unesc (esc (cstr m)) = cstr m
      ∧ ∀ s : List Char, unesc (esc s) = s :=
  ⟨serializeLine_of_fits n t m h, unesc_esc _, unesc_esc _, unesc_esc _, unesc_esc⟩

/-- C2 at a name and a topic that contain backslashes and double quotes. -/
theorem C2_escape_roundtrip_witness :
    serializeLine "#a\\b".toList "say \"hi\"".toList "nt".toList
        = some "<permchannels channel=\"#a\\\\b\" topic=\"say \\\"hi\\\"\" modes=\"nt\">\n".toList
      ∧ unesc (esc "say \"hi\"".toList) = "say \"hi\"".toList :=
  have h := C2_escape_roundtrip "#a\\b".toList "say \"hi\"".toList "nt".toList (by decide)
  ⟨h.1.trans (by decide), h.2.2.2.2 _⟩

/-- C3: the records `WriteDatabase` emits after the header correspond one to one, in the
order of `chanlist`, to the channels that have mode `P` set: the list of emitted lines is
matched element by element with the list of flagged channels, each line being the
serializer's line for its channel; and when no step fails, the file the call leaves at the
configured path is the header followed by exactly these lines. -/
theorem C3_records_follow_flagged (ChanModes : Channel → List Char) (chanlist : List Channel) :
    ∃ recs, writeRecords ChanModes chanlist = some recs
      ∧ List.Forall₂ (fun c line => serializeLine c.name c.topic (ChanModes c) = some line)
          (chanlist.filter fun c => IsModeSet c 'P') recs
      ∧ ∀ (sys : Sys) (conf : List Char) (fs : FS), conf ≠ [] →
          (∀ st, sys.fails st = false) → (sys.win32 = true → fs conf ≠ none) →
          (WriteDatabase sys ChanModes conf chanlist fs).map (fun r => (r.1, r.2 conf))
            = some (true, some (header ++ flat recs)) := by
  obtain ⟨recs, hrecs, hall⟩ := writeRecords_forall₂ ChanModes chanlist
  refine ⟨recs, hrecs, hall, ?_⟩
  intro sys conf fs hconf hok hwin
  cases hw : sys.win32
  · simp [WriteDatabase, hconf, hrecs, FS.put, hok, hw]
  · cases hold : fs conf with
    | none => exact absurd hold (hwin hw)
    | some old => simp [WriteDatabase, hconf, hrecs, FS.put, hok, hw, hold]

/-- C3 at a list of three channels of which the first and the last are flagged: two lines
are emitted, the line of `#a` and then the line of `#c`. -/
theorem C3_records_follow_flagged_witness :
    writeRecords (fun _ => "nt".toList)
      [ { name := "#a".toList, age := 0, topic := [], topicset := 0,
          modes := fun m => decide (m = 'P'), params := fun _ => [], users := 0 },
        { name := "#b".toList, age := 0, topic := [], topicset := 0,
          modes := fun _ => false, params := fun _ => [], users := 2 },
        { name := "#c".toList, age := 0, topic := "x".toList, topicset := 0,
          modes := fun m => decide (m = 'P'), params := fun _ => [], users := 1 } ]
      = some [ "<permchannels channel=\"#a\" topic=\"\" modes=\"nt\">\n".toList,
               "<permchannels channel=\"#c\" topic=\"x\" modes=\"nt\">\n".toList ] := by
  obtain ⟨recs, h1, _, _⟩ := C3_records_follow_flagged (fun _ => "nt".toList)
    [ { name := "#a".toList, age := 0, topic := [], topicset := 0,
        modes := fun m => decide (m = 'P'), params := fun _ => [], users := 0 },
      { name := "#b".toList, age := 0, topic := [], topicset := 0,
        modes := fun _ => false, params := fun _ => [], users := 2 },
      { name := "#c".toList, age := 0, topic := "x".toList, topicset := 0,
        modes := fun m => decide (m = 'P'), params := fun _ => [], users := 1 } ]
  rw [h1]
  exact h1.symm.trans (by decide)

/-- C4: for every name, topic and mode string, of any length and content, the loop ends
with every store inside the 1024-byte buffer (`loop` and `LineBuf.write` return `none` on
a store outside `0 .. 1023`), the terminator index `lpos - 1` is between 0 and 1022, and
the line handed to `fputs` has length at most 1022. -/
theorem C4_no_overflow (n t m : List Char) :
    ∃ s buf line,
      loop (items n t m) 1022 { line := LineBuf.fresh, lpos := 0, item := 0, ipos := 0 } = some s
      ∧ 0 ≤ s.lpos - 1 ∧ s.lpos - 1 ≤ 1022
      ∧ s.line.write (s.lpos - 1) NUL = some buf
      ∧ serializeLine n t m = some line ∧ line.length ≤ 1022 := by
  obtain ⟨s, junk, hs, hline, hlpos, hlen⟩ := serializeLine_loop n t m
  have hpos : 0 < (stored n t m).length := List.length_pos.mpr (stored_ne_nil n t m)
  have hle := stored_length_le n t m
  have hidx : 0 ≤ s.lpos - 1 ∧ s.lpos - 1 < 1024 := by
    rw [hlpos]
    constructor <;> omega
  refine ⟨s, s.line.set (s.lpos - 1).toNat (some NUL), (stored n t m).dropLast, hs, ?_, ?_, ?_,
    serializeLine_eq n t m, ?_⟩
  · exact hidx.1
  · rw [hlpos]
    omega
  · rw [LineBuf.write, if_pos hidx]
  · simp
    omega

/-- C5, as the claim states it, fails: with `_WIN32`, a target `db` holding `old` and a
failing `rename`, `WriteDatabase` returns false but the target is gone. -/
theorem C5_counterexample :
    (WriteDatabase { win32 := true, fails := fun st => decide (st = Step.rename), shortWrite := 0 }
        (fun _ => []) "db".toList []
        (fun p => if p = "db".toList then some "old".toList else none)).map
      (fun r => (r.1, r.2 "db".toList)) = some (false, none)
    ∧ (fun p => if p = "db".toList then some "old".toList else none : FS) "db".toList
        = some "old".toList := by
  decide

/-- C5 (amended): for every non-empty configured path and every failure of a step that is
run (create, write, close, rename; remove with `_WIN32` only), `WriteDatabase` returns
false.  The target holds afterwards what it held before, except with `_WIN32` when create,
write, close and remove all succeeded (so it is the rename that failed): then the target
has been removed and no file is there. -/
theorem C5_failure_reported (sys : Sys) (ChanModes : Channel → List Char) (conf : List Char)
    (chanlist : List Channel) (fs : FS) (hconf : conf ≠ [])
    (hfail : ∃ st, sys.fails st = true ∧ (st = Step.remove → sys.win32 = true)) :
    (WriteDatabase sys ChanModes conf chanlist fs).map (fun r => (r.1, r.2 conf))
      = some (false,
          if sys.win32 = true ∧ sys.fails Step.create = false ∧ sys.fails Step.write = false
              ∧ sys.fails Step.close = false ∧ sys.fails Step.remove = false
          then none else fs conf) := by
  obtain ⟨recs, hrecs, _⟩ := writeRecords_forall₂ ChanModes chanlist
  obtain ⟨st, hst, hrem⟩ := hfail
  cases hc : sys.fails Step.create <;> cases hw : sys.fails Step.write <;>
    cases hcl : sys.fails Step.close <;> cases hrm : sys.fails Step.remove <;>
    cases hrn : sys.fails Step.rename <;> cases hwin : sys.win32 <;>
    cases hold : fs conf <;>
    first
    | (simp [WriteDatabase, hconf, hrecs, FS.put, hc, hw, hcl, hrm, hrn, hwin, hold]
       done)
    | (exfalso
       cases st <;> simp_all)

/-- C5 (amended) at a failing write without `_WIN32`: false is returned and the target
still holds `old`. -/
theorem C5_failure_reported_witness :
    (WriteDatabase { win32 := false, fails := fun st => decide (st = Step.write), shortWrite := 3 }
        (fun _ => []) "db".toList []
        (fun p => if p = "db".toList then some "old".toList else none)).map
      (fun r => (r.1, r.2 "db".toList)) = some (false, some "old".toList) :=
  (C5_failure_reported
    { win32 := false, fails := fun st => decide (st = Step.write), shortWrite := 3 }
    (fun _ => []) "db".toList []
    (fun p => if p = "db".toList then some "old".toList else none) (by decide)
    ⟨Step.write, by decide, by decide⟩).trans (by decide)

/-- C6: `PermChannel::OnModeChange` returns `MODEACTION_ALLOW` exactly when the request is
an actual transition (adding while `P` is unset, or removing while `P` is set) and
`MODEACTION_DENY` otherwise; after an accepted add the channel's `P` flag is set and after
an accepted remove it is clear, on the channel object and on every entry of that name left
in `chanlist`. -/
theorem C6_gate_transition (chanlist : List Channel) (channel : Channel) (adding : Bool) :
    ((PermChannel.OnModeChange chanlist channel adding).1 = MODEACTION_ALLOW
        ↔ adding ≠ IsModeSet channel 'P')
    ∧ ((PermChannel.OnModeChange chanlist channel adding).1 = MODEACTION_DENY
        ↔ adding = IsModeSet channel 'P')
    ∧ ((PermChannel.OnModeChange chanlist channel adding).1 = MODEACTION_ALLOW →
        IsModeSet (PermChannel.OnModeChange chanlist channel adding).2.1 'P' = adding
        ∧ ∀ c ∈ (PermChannel.OnModeChange chanlist channel adding).2.2,
            c.name = channel.name → IsModeSet c 'P' = adding) := by
  cases adding <;> cases hP : IsModeSet channel 'P'
  · rw [onModeChange_remove_unset _ _ hP]
    simp
  · rw [onModeChange_remove _ _ hP]
    refine ⟨by simp, by simp, fun _ => ⟨isModeSet_setMode_same _ _ _, ?_⟩⟩
    intro c hc hn
    have hsub : c ∈ store chanlist (SetMode channel 'P' false) := by
      simp only at hc
      split at hc
      · exact (List.mem_filter.mp hc).1
      · exact hc
    rw [mem_store_same _ _ c hsub hn]
    exact isModeSet_setMode_same _ _ _
  · rw [onModeChange_add _ _ hP]
    refine ⟨by simp, by simp, fun _ => ⟨isModeSet_setMode_same _ _ _, ?_⟩⟩
    intro c hc hn
    rw [mem_store_same _ _ c hc hn]
    exact isModeSet_setMode_same _ _ _
  · rw [onModeChange_add_set _ _ hP]
    simp

/-- C7: when `PermChannel::OnModeChange` returns DENY, the channel object and `chanlist`
are exactly as before the call; when it returns ALLOW, the `P` bit is the only mode bit
whose value differs (it is flipped), the name, creation time, topic, topic timestamp, mode
parameters and member count of the channel are unchanged, and the entries of `chanlist`
for every other channel are unchanged. -/
theorem C7_gate_frame (chanlist : List Channel) (channel : Channel) (adding : Bool) :
    ((PermChannel.OnModeChange chanlist channel adding).1 = MODEACTION_DENY →
        (PermChannel.OnModeChange chanlist channel adding).2.1 = channel
        ∧ (PermChannel.OnModeChange chanlist channel adding).2.2 = chanlist)
    ∧ ((PermChannel.OnModeChange chanlist channel adding).1 = MODEACTION_ALLOW →
        (∀ mode, mode ≠ 'P' →
          IsModeSet (PermChannel.OnModeChange chanlist channel adding).2.1 mode
            = IsModeSet channel mode)
        ∧ IsModeSet (PermChannel.OnModeChange chanlist channel adding).2.1 'P'
            = !IsModeSet channel 'P'
        ∧ (PermChannel.OnModeChange chanlist channel adding).2.1.name = channel.name
        ∧ (PermChannel.OnModeChange chanlist channel adding).2.1.age = channel.age
        ∧ (PermChannel.OnModeChange chanlist channel adding).2.1.topic = channel.topic
        ∧ (PermChannel.OnModeChange chanlist channel adding).2.1.topicset = channel.topicset
        ∧ (PermChannel.OnModeChange chanlist channel adding).2.1.params = channel.params
        ∧ (PermChannel.OnModeChange chanlist channel adding).2.1.users = channel.users
        ∧ (PermChannel.OnModeChange chanlist channel adding).2.2.filter
              (fun x => decide (x.name ≠ channel.name))
            = chanlist.filter (fun x => decide (x.name ≠ channel.name))) := by
  cases adding <;> cases hP : IsModeSet channel 'P'
  · rw [onModeChange_remove_unset _ _ hP]
    simp
  · rw [onModeChange_remove _ _ hP]
    refine ⟨by simp, fun _ => ⟨?_, ?_, rfl, rfl, rfl, rfl, rfl, rfl, ?_⟩⟩
    · intro mode hm
      exact isModeSet_setMode_other _ _ _ _ hm
    · rw [isModeSet_setMode_same]
      rfl
    · have h := store_others chanlist (SetMode channel 'P' false)
      rw [setMode_name] at h
      simp only
      split
      · rw [List.filter_filter]
        simpa using h
      · exact h
  · rw [onModeChange_add _ _ hP]
    refine ⟨by simp, fun _ => ⟨?_, ?_, rfl, rfl, rfl, rfl, rfl, rfl, ?_⟩⟩
    · intro mode hm
      exact isModeSet_setMode_other _ _ _ _ hm
    · rw [isModeSet_setMode_same]
      rfl
    · have h := store_others chanlist (SetMode channel 'P' true)
      rw [setMode_name] at h
      exact h
  · rw [onModeChange_add_set _ _ hP]
    simp

/-- C8: for a flagged channel of `chanlist`, a remove through `PermChannel::OnModeChange`
is accepted and leaves no entry of that name in `chanlist` exactly when the member count
is zero; the module's own veto `OnChannelPreDelete`, which denies deletion of the channel
before the call, passes the channel once the flag is cleared; with one or more members
the channel stays.  An add never removes an entry: the names in `chanlist` are the same
after it. -/
theorem C8_remove_forces_deletion (chanlist : List Channel) (channel : Channel)
    (hmem : channel ∈ chanlist) (hP : IsModeSet channel 'P' = true) :
    (PermChannel.OnModeChange chanlist channel false).1 = MODEACTION_ALLOW
    ∧ OnChannelPreDelete channel = MOD_RES_DENY
    ∧ OnChannelPreDelete (PermChannel.OnModeChange chanlist channel false).2.1 = MOD_RES_PASSTHRU
    ∧ ((∀ c ∈ (PermChannel.OnModeChange chanlist channel false).2.2, c.name ≠ channel.name)
        ↔ GetUserCounter channel = 0)
    ∧ ∀ (cl : List Channel) (ch : Channel),
        (PermChannel.OnModeChange cl ch true).2.2.map Channel.name = cl.map Channel.name := by
  refine ⟨?_, by simp [OnChannelPreDelete, hP], ?_, ?_, ?_⟩
  · rw [onModeChange_remove _ _ hP]
  · rw [onModeChange_remove _ _ hP]
    simp [OnChannelPreDelete, isModeSet_setMode_same]
  · rw [onModeChange_remove _ _ hP]
    simp only [GetUserCounter]
    by_cases h0 : channel.users = 0
    · rw [if_pos h0]
      refine ⟨fun _ => h0, fun _ c hc => ?_⟩
      have := (List.mem_filter.mp hc).2
      simpa using this
    · rw [if_neg h0]
      refine ⟨fun hall => ?_, fun h => absurd h h0⟩
      have hin := mem_store_self chanlist channel (SetMode channel 'P' false) hmem rfl
      exact absurd (setMode_name channel 'P' false) (hall _ hin)
  · intro cl ch
    cases h : IsModeSet ch 'P'
    · rw [onModeChange_add _ _ h]
      exact store_names _ _
    · rw [onModeChange_add_set _ _ h]

/-- C8 at a flagged, empty channel `#a` listed before an unflagged channel `#b`: after the
remove only `#b` is left. -/
theorem C8_remove_forces_deletion_witness :
    (PermChannel.OnModeChange
        [ { name := "#a".toList, age := 0, topic := [], topicset := 0,
            modes := fun m => decide (m = 'P'), params := fun _ => [], users := 0 },
          { name := "#b".toList, age := 0, topic := [], topicset := 0,
            modes := fun _ => false, params := fun _ => [], users := 0 } ]
        { name := "#a".toList, age := 0, topic := [], topicset := 0,
          modes := fun m => decide (m = 'P'), params := fun _ => [], users := 0 }
        false).2.2.map Channel.name = ["#b".toList]
    ∧ ∀ c ∈ (PermChannel.OnModeChange
        [ { name := "#a".toList, age := 0, topic := [], topicset := 0,
            modes := fun m => decide (m = 'P'), params := fun _ => [], users := 0 },
          { name := "#b".toList, age := 0, topic := [], topicset := 0,
            modes := fun _ => false, params := fun _ => [], users := 0 } ]
        { name := "#a".toList, age := 0, topic := [], topicset := 0,
          modes := fun m => decide (m = 'P'), params := fun _ => [], users := 0 }
        false).2.2, c.name ≠ "#a".toList :=
  ⟨by decide,
   (C8_remove_forces_deletion
      [ { name := "#a".toList, age := 0, topic := [], topicset := 0,
          modes := fun m => decide (m = 'P'), params := fun _ => [], users := 0 },
        { name := "#b".toList, age := 0, topic := [], topicset := 0,
          modes := fun _ => false, params := fun _ => [], users := 0 } ]
      { name := "#a".toList, age := 0, topic := [], topicset := 0,
        modes := fun m => decide (m = 'P'), params := fun _ => [], users := 0 }
      (List.mem_cons_self _ _) (by decide)).2.2.2.1.mpr rfl⟩

/-- C9: `OnBackgroundTimer` calls `WriteDatabase` exactly once when `dirty` is set and not
at all when it is clear; `dirty` is clear afterwards whatever the call returned; and a
second tick right after, under any conditions, makes no call and changes nothing. -/
theorem C9_timer_flushes_once (sys sys2 : Sys) (ChanModes : Channel → List Char)
    (m : ModulePermanentChannels) (w : World) :
    ∃ m' w' calls, OnBackgroundTimer sys ChanModes m w = some (m', w', calls)
      ∧ m'.dirty = false
      ∧ calls.length = (if m.dirty then 1 else 0)
      ∧ (m.dirty = true → ∃ ok fs',
          WriteDatabase sys ChanModes w.permchannelsconf w.chanlist w.fs = some (ok, fs')
          ∧ calls = [ok] ∧ w' = { w with fs := fs' })
      ∧ (m.dirty = false → w' = w)
      ∧ OnBackgroundTimer sys2 ChanModes m' w' = some (m', w', []) := by
  obtain ⟨ok, fs', hw⟩ :=
    writeDatabase_total sys ChanModes w.permchannelsconf w.chanlist w.fs
  cases hd : m.dirty
  · refine ⟨{ m with dirty := false }, w, [], ?_, rfl, by simp, by simp, fun _ => rfl, ?_⟩
    · simp [OnBackgroundTimer, hd]
    · simp [OnBackgroundTimer]
  · refine ⟨{ m with dirty := false }, { w with fs := fs' }, [ok], ?_, rfl, by simp,
      fun _ => ⟨ok, fs', hw, rfl, rfl⟩, by simp, ?_⟩
    · simp [OnBackgroundTimer, hd, hw]
    · simp [OnBackgroundTimer]

/-- C10, as the claim states it, fails: a `-P` raw mode change on an unflagged channel
does not make the channel gain or lose the flag, yet `OnRawMode` sets `dirty`. -/
theorem C10_counterexample :
    (OnRawMode { dirty := false }
        (some { name := "#a".toList, age := 0, topic := [], topicset := 0,
                modes := fun _ => false, params := fun _ => [], users := 1 })
        'P' [] false 0).2.dirty = true
    ∧ specRawModeDirty false
        (some { name := "#a".toList, age := 0, topic := [], topicset := 0,
                modes := fun _ => false, params := fun _ => [], users := 1 })
        'P' false = false := by
  decide

/-- C10 (amended): the hooks never clear `dirty`; after `OnRawMode` it is the old value or
(`chan` is a channel and (the channel has mode `P` set or the mode letter of the change is
`P`, whether or not the change flips the flag)); after `OnPostTopicChange` it is the old
value or (the channel has mode `P` set).  `OnRawMode` returns `MOD_RES_PASSTHRU`. -/
theorem C10_dirty_triggers (m : ModulePermanentChannels) (chan : Option Channel) (mode : Char)
    (param : List Char) (adding : Bool) (pcnt : Int) (c : Channel) :
    (OnRawMode m chan mode param adding pcnt).2.dirty
        = (m.dirty || match chan with
            | some ch => IsModeSet ch 'P' || decide (mode = 'P')
            | none => false)
    ∧ (OnRawMode m chan mode param adding pcnt).1 = MOD_RES_PASSTHRU
    ∧ (OnPostTopicChange m c).dirty = (m.dirty || IsModeSet c 'P') := by
  refine ⟨?_, ?_, ?_⟩
  · cases chan with
    | none => simp [OnRawMode]
    | some ch =>
      by_cases h : IsModeSet ch 'P' = true ∨ mode = 'P'
      · rcases h with h | h <;> simp [OnRawMode, h]
      · have h1 : IsModeSet ch 'P' = false := by
          cases hh : IsModeSet ch 'P'
          · rfl
          · exact absurd (Or.inl hh) h
        have h2 : mode ≠ 'P' := fun e => h (Or.inr e)
        simp [OnRawMode, h1, h2]
  · cases chan with
    | none => rfl
    | some ch =>
      simp only [OnRawMode]
      split <;> rfl
  · cases h : IsModeSet c 'P' <;> simp [OnPostTopicChange, h]

/-! ## Truncation of an over-long line -/

theorem run_cases (toks : List (List Char)) (out : List Char) (hg : ∀ tok ∈ toks, GoodTok tok) :
    (run toks out = out ++ flat toks
        ∧ ∀ init l, toks = init ++ [l] → out.length + (flat init).length < 1022)
    ∨ (∃ pre rest, toks = pre ++ rest ∧ rest ≠ [] ∧ run toks out = out ++ flat pre
        ∧ 1022 ≤ (out ++ flat pre).length) := by
  induction toks generalizing out with
  | nil =>
    left
    refine ⟨by simp [run, flat], ?_⟩
    intro init l h
    simp at h
  | cons tok toks ih =>
    by_cases hlt : out.length < 1022
    · have hrun : run (tok :: toks) out = run toks (out ++ tok) := by simp [run, hlt]
      rcases ih (out ++ tok) (fun t ht => hg t (by simp [ht])) with ⟨h1, h2⟩ | ⟨pre, rest, h1, h2, h3, h4⟩
      · left
        refine ⟨by rw [hrun, h1]; simp [flat], ?_⟩
        intro init l h
        cases init with
        | nil => simpa [flat] using hlt
        | cons a init =>
          simp at h
          obtain ⟨rfl, h⟩ := h
          have := h2 init l h
          simp [flat] at this ⊢
          omega
      · right
        refine ⟨tok :: pre, rest, by simp [h1], h2, by rw [hrun, h3]; simp [flat], ?_⟩
        simpa [flat] using h4
    · right
      exact ⟨[], tok :: toks, by simp, by simp, by simp [run, hlt, flat], by simp [flat]; omega⟩

theorem allTokens_ends_with_quote (its : List (List Char)) (h : its ≠ []) :
    ∃ init, allTokens its = init ++ [['"']] := by
  induction its with
  | nil => exact absurd rfl h
  | cons s rest ih =>
    cases rest with
    | nil => exact ⟨(cstr s).map emit, by simp [allTokens, tokensOf]⟩
    | cons s2 rest =>
      obtain ⟨init, hi⟩ := ih (by simp)
      exact ⟨tokensOf s ++ init, by rw [allTokens, hi]; simp⟩

theorem flat_ne_nil (toks : List (List Char)) (hg : ∀ tok ∈ toks, GoodTok tok) (h : toks ≠ []) :
    flat toks ≠ [] := by
  cases toks with
  | nil => exact absurd rfl h
  | cons tok rest =>
    have := (hg tok (by simp)).1
    simp [flat, this]

theorem stored_cases (n t m : List Char) :
    ((idealLine (cstr n) (cstr t) (cstr m)).length ≤ 1021
        ∧ stored n t m = idealLine (cstr n) (cstr t) (cstr m) ++ ['"'])
    ∨ (1022 ≤ (idealLine (cstr n) (cstr t) (cstr m)).length
        ∧ 1022 ≤ (stored n t m).length ∧ (stored n t m).length ≤ 1023
        ∧ ∃ cut, cut ≠ [] ∧ idealLine (cstr n) (cstr t) (cstr m) ++ ['"'] = stored n t m ++ cut) := by
  have hg := goodTok_allTokens (items n t m)
  have hflat := flat_allTokens_items n t m
  rcases run_cases (allTokens (items n t m)) [] hg with ⟨h1, h2⟩ | ⟨pre, rest, h1, h2, h3, h4⟩
  · left
    obtain ⟨init, hi⟩ := allTokens_ends_with_quote (items n t m) (by simp [items])
    have hlen := h2 init _ hi
    have hfl : flat init ++ ['"'] = idealLine (cstr n) (cstr t) (cstr m) ++ ['"'] := by
      rw [← hflat, hi, flat_append]
      simp [flat]
    have heq : flat init = idealLine (cstr n) (cstr t) (cstr m) := List.append_cancel_right hfl
    refine ⟨?_, ?_⟩
    · rw [← heq]
      simp at hlen
      omega
    · rw [stored, h1, hflat]
      simp
  · right
    have hst : stored n t m = flat pre := by
      rw [stored, h3]
      simp
    have hcut : idealLine (cstr n) (cstr t) (cstr m) ++ ['"'] = stored n t m ++ flat rest := by
      rw [← hflat, hst, h1, flat_append]
    have hrest : flat rest ≠ [] :=
      flat_ne_nil rest (fun tok ht => hg tok (by rw [h1]; simp [ht])) h2
    have hge : 1022 ≤ (stored n t m).length := by
      rw [hst]
      simpa using h4
    have hpos : 0 < (flat rest).length := List.length_pos.mpr hrest
    have hl := congrArg List.length hcut
    simp at hl
    exact ⟨by omega, hge, stored_length_le n t m, flat rest, hrest, hcut⟩

/-- C19: the line the bounded loop writes is a prefix of the ideal line `L` (the escaped
record ending in a quote, `>` and a newline); it is `L` exactly when `L` has at most 1021
bytes, and when `L` has 1022 bytes or more it is a strict prefix of 1021 or 1022 bytes, so
the final newline is lost.  The last conjunct exhibits a name for which the line ends in
the backslash of an escape whose second byte was cut off. -/
theorem C19_truncated_prefix :
    (∀ n t m : List Char, ∃ line, serializeLine n t m = some line
      ∧ line <+: idealLine (cstr n) (cstr t) (cstr m)
      ∧ (line = idealLine (cstr n) (cstr t) (cstr m)
          ↔ (idealLine (cstr n) (cstr t) (cstr m)).length ≤ 1021)
      ∧ (1022 ≤ (idealLine (cstr n) (cstr t) (cstr m)).length →
          line.length < (idealLine (cstr n) (cstr t) (cstr m)).length
          ∧ (line.length = 1021 ∨ line.length = 1022)))
    ∧ ∃ line, serializeLine (List.replicate 997 'a' ++ ['"']) [] [] = some line
        ∧ line.length = 1021 ∧ line.getLast? = some '\\'
        ∧ (idealLine (cstr (List.replicate 997 'a' ++ ['"'])) [] []).getD 1021 'x' = '"' := by
  constructor
  · intro n t m
    refine ⟨(stored n t m).dropLast, serializeLine_eq n t m, ?_⟩
    rcases stored_cases n t m with ⟨hle, hst⟩ | ⟨hge, h1, h2, cut, hcut, heq⟩
    · have hline : (stored n t m).dropLast = idealLine (cstr n) (cstr t) (cstr m) := by
        rw [hst]
        simp
      rw [hline]
      exact ⟨List.prefix_refl _, by simp [hle], fun h => by omega⟩
    · have hne := stored_ne_nil n t m
      have hsplit : stored n t m = (stored n t m).dropLast ++ [(stored n t m).getLast hne] :=
        (List.dropLast_append_getLast hne).symm
      have hlen : (stored n t m).dropLast.length = (stored n t m).length - 1 := by simp
      have hcutpos : 0 < cut.length := List.length_pos.mpr hcut
      have hl := congrArg List.length heq
      simp only [List.length_append, List.length_singleton] at hl
      have hp1 : (stored n t m).dropLast <+: idealLine (cstr n) (cstr t) (cstr m) ++ ['"'] := by
        rw [heq]
        exact ⟨[(stored n t m).getLast hne] ++ cut, by rw [← List.append_assoc, ← hsplit]⟩
      have hp2 : idealLine (cstr n) (cstr t) (cstr m)
          <+: idealLine (cstr n) (cstr t) (cstr m) ++ ['"'] := List.prefix_append _ _
      refine ⟨List.prefix_of_prefix_length_le hp1 hp2 (by omega), ?_, fun _ => ⟨by omega, by omega⟩⟩
      constructor
      · intro h
        have := congrArg List.length h
        omega
      · intro h
        omega
  · refine ⟨(stored (List.replicate 997 'a' ++ ['"']) [] []).dropLast, serializeLine_eq _ _ _, ?_⟩
    set_option maxRecDepth 100000 in decide

/-! ## The teardown sweep -/

theorem get?_at_length {α : Type} (done : List α) (c : α) (rest : List α) :
    (done ++ c :: rest).get? done.length = some c := by
  induction done with
  | nil => rfl
  | cons a done ih => simpa using ih

theorem eraseIdx_at_length {α : Type} (done : List α) (c : α) (rest : List α) :
    (done ++ c :: rest).eraseIdx done.length = done ++ rest := by
  induction done with
  | nil => rfl
  | cons a done ih => simpa using ih

theorem sweepLoop_spec (fuel : Nat) :
    ∀ (done todo deleted : List Channel), todo.length ≤ fuel →
      sweepLoop fuel { chanlist := done ++ todo, iter := done.length, deleted := deleted }
        = some { chanlist := done ++ todo.filter (fun c => decide (0 < GetUserCounter c)),
                 iter := (done ++ todo.filter (fun c => decide (0 < GetUserCounter c))).length,
                 deleted := deleted ++ todo.filter (fun c => decide (GetUserCounter c = 0)) } := by
  induction fuel with
  | zero =>
    intro done todo deleted h
    have : todo = [] := List.length_eq_zero.mp (by omega)
    subst this
    simp [sweepLoop]
  | succ fuel ih =>
    intro done todo deleted h
    cases todo with
    | nil => simp [sweepLoop]
    | cons c rest =>
      have hlt : done.length < (done ++ c :: rest).length := by simp
      rw [sweepLoop, if_pos hlt]
      by_cases h0 : GetUserCounter c = 0
      · have hb : sweepBody { chanlist := done ++ c :: rest, iter := done.length, deleted := deleted }
            = { chanlist := done ++ rest, iter := done.length, deleted := deleted ++ [c] } := by
          simp only [sweepBody, get?_at_length, h0, if_true, eraseIdx_at_length]
        rw [hb, ih done rest (deleted ++ [c]) (by simp at h; omega)]
        simp [List.filter_cons, h0]
      · have hb : sweepBody { chanlist := done ++ c :: rest, iter := done.length, deleted := deleted }
            = { chanlist := (done ++ [c]) ++ rest, iter := (done ++ [c]).length,
                deleted := deleted } := by
          simp only [sweepBody, get?_at_length, h0, if_false]
          simp
        have hpos : 0 < GetUserCounter c := Nat.pos_of_ne_zero h0
        rw [hb, ih (done ++ [c]) rest deleted (by simp at h; omega)]
        simp [List.filter_cons, h0, hpos]

/-- C15: for every `chanlist`, the sweep of `cull` terminates; after it `chanlist` holds
exactly the channels that had at least one member, in their original order; every channel
without members is removed, whatever its `P` flag; and `OnChannelDelete` was raised once
for each removed channel, in order, and for no other. -/
theorem C15_cull_sweep (chanlist : List Channel) :
    ∃ s, cullSweep chanlist = some s
      ∧ s.chanlist = chanlist.filter (fun c => decide (0 < GetUserCounter c))
      ∧ s.deleted = chanlist.filter (fun c => decide (GetUserCounter c = 0))
      ∧ s.iter = s.chanlist.length
      ∧ (∀ c ∈ chanlist, GetUserCounter c = 0 → c ∉ s.chanlist ∧ c ∈ s.deleted)
      ∧ (∀ c ∈ chanlist, 0 < GetUserCounter c → c ∈ s.chanlist ∧ c ∉ s.deleted) := by
  have h := sweepLoop_spec chanlist.length [] chanlist [] (Nat.le_refl _)
  simp only [List.nil_append, List.length_nil] at h
  refine ⟨_, h, rfl, rfl, rfl, ?_, ?_⟩
  · intro c hc h0
    simp [List.mem_filter, hc, h0]
  · intro c hc hpos
    have : GetUserCounter c ≠ 0 := by omega
    simp [List.mem_filter, hc, hpos, this]

/-! ## Rehydration: the new channel is the last entry of `chanlist` -/

theorem findChan_eq_none (chanlist : List Channel) (name : List Char) :
    FindChan chanlist name = none ↔ ∀ x ∈ chanlist, x.name ≠ name := by
  simp [FindChan, List.find?_eq_none]

theorem findChan_ne_none (chanlist : List Channel) (name : List Char) :
    FindChan chanlist name ≠ none ↔ ∃ x ∈ chanlist, x.name = name := by
  rw [Ne, findChan_eq_none]
  push_neg
  rfl

theorem store_unchanged (old : List Channel) (c : Channel) (h : ∀ x ∈ old, x.name ≠ c.name) :
    store old c = old := by
  induction old with
  | nil => rfl
  | cons x rest ih =>
    have hx : x.name ≠ c.name := h x (by simp)
    have hr := ih (fun y hy => h y (by simp [hy]))
    simp only [store, List.map_cons] at hr ⊢
    rw [hr, if_neg hx]

theorem store_append_last (old : List Channel) (c c' : Channel)
    (h : ∀ x ∈ old, x.name ≠ c.name) (hn : c'.name = c.name) :
    store (old ++ [c]) c' = old ++ [c'] := by
  have h' : ∀ x ∈ old, x.name ≠ c'.name := by rw [hn]; exact h
  have h1 := store_unchanged old c' h'
  simp only [store, List.map_append, List.map_cons, List.map_nil] at h1 ⊢
  rw [h1, if_pos hn.symm]

theorem invoke_last (mode : Found) (old : List Channel) (c : Channel) (par : List Char)
    (h : ∀ x ∈ old, x.name ≠ c.name) :
    (invoke mode (old ++ [c]) c par true).2.2 = old ++ [(invoke mode (old ++ [c]) c par true).2.1]
      ∧ (invoke mode (old ++ [c]) c par true).2.1.name = c.name := by
  cases mode with
  | permanent =>
    cases hP : IsModeSet c 'P'
    · have e : invoke Found.permanent (old ++ [c]) c par true
          = (MODEACTION_ALLOW, SetMode c 'P' true, store (old ++ [c]) (SetMode c 'P' true)) :=
        onModeChange_add _ _ hP
      rw [e]
      exact ⟨store_append_last old c _ h rfl, rfl⟩
    · have e : invoke Found.permanent (old ++ [c]) c par true = (MODEACTION_DENY, c, old ++ [c]) :=
        onModeChange_add_set _ _ hP
      rw [e]
      exact ⟨rfl, rfl⟩
  | other hd =>
    exact ⟨store_append_last old c _ h rfl, rfl⟩

theorem applyModes_last (host : Host) (modeseq : List Char) :
    ∀ (list : List (List Char)) (c : Channel) (old : List Channel),
      (∀ x ∈ old, x.name ≠ c.name) →
      (applyModes host modeseq list c (old ++ [c])).2.1
          = old ++ [(applyModes host modeseq list c (old ++ [c])).1]
        ∧ (applyModes host modeseq list c (old ++ [c])).1.name = c.name
        ∧ ∀ i ∈ (applyModes host modeseq list c (old ++ [c])).2.2,
            i.chan = c.name ∧ i.adding = true := by
  induction modeseq with
  | nil =>
    intro list c old _
    simp [applyModes]
  | cons n modeseq ih =>
    intro list c old h
    cases hf : FindMode host n with
    | none =>
      simp only [applyModes, hf]
      exact ih list c old h
    | some mode =>
      simp only [applyModes, hf]
      obtain ⟨h1, h2⟩ := invoke_last mode old c
        (if GetNumParams mode ≠ 0 then GetToken list else ([], list)).1 h
      rw [h1]
      obtain ⟨g1, g2, g3⟩ := ih (if GetNumParams mode ≠ 0 then GetToken list else ([], list)).2
        (invoke mode (old ++ [c]) c
          (if GetNumParams mode ≠ 0 then GetToken list else ([], list)).1 true).2.1 old
        (by rw [h2]; exact h)
      refine ⟨g1, g2.trans h2, ?_⟩
      intro i hi
      rcases List.mem_cons.mp hi with rfl | hi
      · exact ⟨rfl, rfl⟩
      · exact ⟨(g3 i hi).1.trans h2, (g3 i hi).2⟩

theorem rehashTag_skip (host : Host) (s : ModulePermanentChannels × List Channel × List Invocation)
    (tag : ConfigTag) (h : tag.channel = [] ∨ FindChan s.2.1 tag.channel ≠ none) :
    rehashTag host s tag = s := by
  unfold rehashTag
  rcases h with h | h
  · rw [if_pos h]
  · split
    · rfl
    · cases hf : FindChan s.2.1 tag.channel with
      | none => exact absurd hf h
      | some c => rfl

theorem createChannel_spec (host : Host) (m : ModulePermanentChannels) (cl : List Channel)
    (tag : ConfigTag) (hold : ∀ x ∈ cl, x.name ≠ tag.channel) :
    createChannel host m cl tag
        = (m, (createChannel host m cl tag).2.1, cl ++ [(createChannel host m cl tag).2.1])
      ∧ (createChannel host m cl tag).2.1.name = tag.channel
      ∧ (createChannel host m cl tag).2.1.topic = tag.topic
      ∧ (createChannel host m cl tag).2.1.topicset = (if tag.topic ≠ [] then 42 else 0)
      ∧ (createChannel host m cl tag).2.1.modes = (fun _ => false)
      ∧ (createChannel host m cl tag).2.1.users = 0
      ∧ (createChannel host m cl tag).2.1.params = (fun _ => [])
      ∧ (createChannel host m cl tag).2.1.age = host.Time := by
  by_cases ht : tag.topic ≠ []
  · have hm : (if host.topicNotify then
        OnPostTopicChange m (SetTopic (Channel.create tag.channel host.Time) tag.topic host.Time)
        else m) = m := by
      split
      · simp [OnPostTopicChange, IsModeSet, SetTopic, Channel.create]
      · rfl
    have hst := store_append_last cl (Channel.create tag.channel host.Time)
      { SetTopic (Channel.create tag.channel host.Time) tag.topic host.Time with topicset := 42 }
      hold rfl
    have e : createChannel host m cl tag
        = (m, { SetTopic (Channel.create tag.channel host.Time) tag.topic host.Time with
                  topicset := 42 },
            cl ++ [{ SetTopic (Channel.create tag.channel host.Time) tag.topic host.Time with
                  topicset := 42 }]) := by
      simp only [createChannel, if_pos ht, hm, hst]
    rw [e]
    refine ⟨rfl, rfl, rfl, ?_, rfl, rfl, rfl, rfl⟩
    rw [if_pos ht]
  · have e : createChannel host m cl tag
        = (m, Channel.create tag.channel host.Time, cl ++ [Channel.create tag.channel host.Time]) := by
      simp only [createChannel, if_neg ht]
    rw [e]
    have ht' : tag.topic = [] := by simpa using ht
    refine ⟨rfl, rfl, ?_, ?_, rfl, rfl, rfl, rfl⟩
    · rw [ht']
      rfl
    · rw [if_neg ht]
      rfl

theorem rehashTag_new (host : Host) (m : ModulePermanentChannels) (cl : List Channel)
    (log : List Invocation) (tag : ConfigTag) (he : tag.channel ≠ [])
    (hf : FindChan cl tag.channel = none) :
    rehashTag host (m, cl, log) tag
      = if tag.modes = [] then (m, cl ++ [(createChannel host m cl tag).2.1], log)
        else
          (m,
           cl ++ [(applyModes host (GetToken (spaceTokens tag.modes)).1
              (GetToken (spaceTokens tag.modes)).2 (createChannel host m cl tag).2.1
              (cl ++ [(createChannel host m cl tag).2.1])).1],
           log ++ (applyModes host (GetToken (spaceTokens tag.modes)).1
              (GetToken (spaceTokens tag.modes)).2 (createChannel host m cl tag).2.1
              (cl ++ [(createChannel host m cl tag).2.1])).2.2) := by
  have hold : ∀ x ∈ cl, x.name ≠ tag.channel := (findChan_eq_none cl tag.channel).mp hf
  obtain ⟨e, hn, _⟩ := createChannel_spec host m cl tag hold
  have hold1 : ∀ x ∈ cl, x.name ≠ (createChannel host m cl tag).2.1.name := by rw [hn]; exact hold
  obtain ⟨g1, _, _⟩ := applyModes_last host (GetToken (spaceTokens tag.modes)).1
    (GetToken (spaceTokens tag.modes)).2 (createChannel host m cl tag).2.1 cl hold1
  have e1 : (createChannel host m cl tag).1 = m := by rw [e]
  have e2 : (createChannel host m cl tag).2.2 = cl ++ [(createChannel host m cl tag).2.1] := by
    rw [e]
  simp only [rehashTag, if_neg he, hf, e1, e2, g1]

theorem rehashTag_spec (host : Host) (m : ModulePermanentChannels) (cl : List Channel)
    (log : List Invocation) (tag : ConfigTag) :
    ∃ created newlog, rehashTag host (m, cl, log) tag = (m, cl ++ created, log ++ newlog)
      ∧ (∀ x ∈ created, x.name = tag.channel ∧ ∀ c ∈ cl, c.name ≠ tag.channel)
      ∧ (∀ i ∈ newlog, i.chan = tag.channel ∧ i.adding = true ∧ ∀ c ∈ cl, c.name ≠ tag.channel)
      ∧ (tag.channel ≠ [] → FindChan (cl ++ created) tag.channel ≠ none) := by
  by_cases he : tag.channel = []
  · refine ⟨[], [], ?_, by simp, by simp, fun h => absurd he h⟩
    rw [rehashTag_skip host _ tag (Or.inl he)]
    simp
  · by_cases hf : FindChan cl tag.channel = none
    · have hold : ∀ x ∈ cl, x.name ≠ tag.channel := (findChan_eq_none cl tag.channel).mp hf
      obtain ⟨_, hn, _⟩ := createChannel_spec host m cl tag hold
      have hold1 : ∀ x ∈ cl, x.name ≠ (createChannel host m cl tag).2.1.name := by
        rw [hn]; exact hold
      obtain ⟨_, g2, g3⟩ := applyModes_last host (GetToken (spaceTokens tag.modes)).1
        (GetToken (spaceTokens tag.modes)).2 (createChannel host m cl tag).2.1 cl hold1
      have hfound : ∀ c' : Channel, c'.name = tag.channel →
          FindChan (cl ++ [c']) tag.channel ≠ none := by
        intro c' hn'
        rw [findChan_ne_none]
        exact ⟨c', by simp, hn'⟩
      rw [rehashTag_new host m cl log tag he hf]
      by_cases hm : tag.modes = []
      · refine ⟨[(createChannel host m cl tag).2.1], [], by rw [if_pos hm]; simp, ?_, by simp,
          fun _ => hfound _ hn⟩
        intro x hx
        rw [List.mem_singleton.mp hx]
        exact ⟨hn, hold⟩
      · refine ⟨_, _, by rw [if_neg hm], ?_, ?_, fun _ => hfound _ (g2.trans hn)⟩
        · intro x hx
          rw [List.mem_singleton.mp hx]
          exact ⟨g2.trans hn, hold⟩
        · intro i hi
          exact ⟨(g3 i hi).1.trans hn, (g3 i hi).2, hold⟩
    · refine ⟨[], [], ?_, by simp, by simp, fun _ => by simpa using hf⟩
      rw [rehashTag_skip host _ tag (Or.inr hf)]
      simp

/-! ## Rehydration: the whole list of tags -/

theorem rehash_fold_skip (host : Host) (tags : List ConfigTag)
    (s : ModulePermanentChannels × List Channel × List Invocation)
    (h : ∀ tag ∈ tags, tag.channel = [] ∨ FindChan s.2.1 tag.channel ≠ none) :
    tags.foldl (rehashTag host) s = s := by
  induction tags with
  | nil => rfl
  | cons tag tags ih =>
    rw [List.foldl_cons, rehashTag_skip host s tag (h tag (by simp))]
    exact ih (fun t ht => h t (by simp [ht]))

theorem rehash_fold_spec (host : Host) (tags : List ConfigTag) :
    ∀ (m : ModulePermanentChannels) (cl : List Channel) (log : List Invocation),
      ∃ created newlog, tags.foldl (rehashTag host) (m, cl, log) = (m, cl ++ created, log ++ newlog)
        ∧ (∀ x ∈ created, ∀ c ∈ cl, x.name ≠ c.name)
        ∧ (∀ i ∈ newlog, i.adding = true ∧ ∀ c ∈ cl, i.chan ≠ c.name)
        ∧ (∀ tag ∈ tags, tag.channel ≠ [] → FindChan (cl ++ created) tag.channel ≠ none) := by
  induction tags with
  | nil =>
    intro m cl log
    exact ⟨[], [], by simp, by simp, by simp, by simp⟩
  | cons tag tags ih =>
    intro m cl log
    obtain ⟨cr1, nl1, e1, a1, b1, f1⟩ := rehashTag_spec host m cl log tag
    obtain ⟨cr2, nl2, e2, a2, b2, f2⟩ := ih m (cl ++ cr1) (log ++ nl1)
    refine ⟨cr1 ++ cr2, nl1 ++ nl2, ?_, ?_, ?_, ?_⟩
    · rw [List.foldl_cons, e1, e2]
      simp
    · intro x hx c hc
      rcases List.mem_append.mp hx with hx | hx
      · rw [(a1 x hx).1]
        exact fun e => (a1 x hx).2 c hc e.symm
      · exact a2 x hx c (by simp [hc])
    · intro i hi
      rcases List.mem_append.mp hi with hi | hi
      · refine ⟨(b1 i hi).2.1, fun c hc => ?_⟩
        rw [(b1 i hi).1]
        exact fun e => (b1 i hi).2.2 c hc e.symm
      · exact ⟨(b2 i hi).1, fun c hc => (b2 i hi).2 c (by simp [hc])⟩
    · intro t ht hne
      rcases List.mem_cons.mp ht with rfl | ht
      · have := f1 hne
        rw [findChan_ne_none] at this ⊢
        obtain ⟨x, hx, hn⟩ := this
        exact ⟨x, by
          rcases List.mem_append.mp hx with h | h
          · simp [h]
          · simp [h], hn⟩
      · have := f2 t ht hne
        rwa [List.append_assoc] at this

/-- C11: `OnRehash` leaves every channel that existed before the call exactly as it was:
`chanlist` after the call is `chanlist` before it followed by the channels created, none
of which bears the name of an existing channel, and no handler call is made on a channel
that existed before; the file system is untouched. -/
theorem C11_rehash_keeps_existing (host : Host) (config : ServerConfig)
    (m : ModulePermanentChannels) (w : World) :
    ∃ created, (OnRehash host config m w).2.1.chanlist = w.chanlist ++ created
      ∧ (∀ x ∈ created, ∀ c ∈ w.chanlist, x.name ≠ c.name)
      ∧ (∀ i ∈ (OnRehash host config m w).2.2, ∀ c ∈ w.chanlist, i.chan ≠ c.name)
      ∧ (∀ c ∈ w.chanlist, c ∈ (OnRehash host config m w).2.1.chanlist)
      ∧ (∀ name, (∃ c ∈ w.chanlist, c.name = name) →
          (OnRehash host config m w).2.1.chanlist.filter (fun x => decide (x.name = name))
            = w.chanlist.filter (fun x => decide (x.name = name)))
      ∧ (OnRehash host config m w).2.1.fs = w.fs := by
  obtain ⟨created, newlog, e, a, b, _⟩ := rehash_fold_spec host config.permchannels m w.chanlist []
  have hcl : (OnRehash host config m w).2.1.chanlist = w.chanlist ++ created := by
    simp only [OnRehash, e]
  have hlog : (OnRehash host config m w).2.2 = newlog := by
    simp only [OnRehash, e, List.nil_append]
  refine ⟨created, hcl, a, ?_, ?_, ?_, rfl⟩
  · rw [hlog]
    exact fun i hi => (b i hi).2
  · intro c hc
    rw [hcl]
    simp [hc]
  · rintro name ⟨c, hc, hn⟩
    rw [hcl, List.filter_append]
    have : created.filter (fun x => decide (x.name = name)) = [] := by
      rw [List.filter_eq_nil_iff]
      intro x hx
      have := a x hx c hc
      simpa [hn] using this
    rw [this, List.append_nil]

/-- C12: rehydration is idempotent: for every state and every configuration (names
declared twice and empty names included), a second `OnRehash` with the same configuration,
at any later time and with any mode registry, leaves the module and the world, `chanlist`
with all names, topics, timestamps and modes included, as the first left them, and makes no
handler call. -/
theorem C12_rehash_idempotent (host host2 : Host) (config : ServerConfig)
    (m : ModulePermanentChannels) (w : World) :
    OnRehash host2 config (OnRehash host config m w).1 (OnRehash host config m w).2.1
      = ((OnRehash host config m w).1, (OnRehash host config m w).2.1, []) := by
  obtain ⟨created, newlog, e, _, _, f⟩ := rehash_fold_spec host config.permchannels m w.chanlist []
  have hskip := rehash_fold_skip host2 config.permchannels (m, w.chanlist ++ created, [])
    (fun tag ht => by
      by_cases he : tag.channel = []
      · exact Or.inl he
      · exact Or.inr (f tag ht he))
  simp only [OnRehash, e, hskip]

/-- C20: `OnRehash` never changes the module's `dirty` flag (the module is returned as it
was), whatever the configuration creates; so when `dirty` was clear, the next timer tick
makes no call of `WriteDatabase` and leaves the world as `OnRehash` left it, even if channels
with mode `P` were created. -/
theorem C20_rehash_keeps_dirty (host : Host) (config : ServerConfig)
    (m : ModulePermanentChannels) (w : World) :
    (OnRehash host config m w).1 = m
    ∧ (OnRehash host config m w).1.dirty = m.dirty
    ∧ (m.dirty = false → ∀ (sys : Sys) (ChanModes : Channel → List Char),
        OnBackgroundTimer sys ChanModes (OnRehash host config m w).1 (OnRehash host config m w).2.1
          = some (m, (OnRehash host config m w).2.1, [])) := by
  obtain ⟨created, newlog, e, _, _, _⟩ := rehash_fold_spec host config.permchannels m w.chanlist []
  have hm : (OnRehash host config m w).1 = m := by
    simp only [OnRehash, e]
  refine ⟨hm, by rw [hm], ?_⟩
  intro hd sys ChanModes
  rw [hm]
  cases m with
  | mk dirty =>
    simp only at hd
    subst hd
    simp [OnBackgroundTimer]

/-- C20 at a configuration that declares `#perm` with modes `P`, on an empty registry with
`dirty` clear: the channel is created with mode `P` set, `dirty` stays clear, and the next
tick makes no call of `WriteDatabase`. -/
theorem C20_rehash_keeps_dirty_witness :
    (OnRehash { Time := 7, modes := fun _ => none, topicNotify := true }
        { filename := "db".toList,
          permchannels := [{ channel := "#perm".toList, topic := "t".toList, modes := "P".toList }] }
        { dirty := false }
        { permchannelsconf := [], chanlist := [], fs := fun _ => none }).2.1.chanlist.map
      (fun c => (c.name, IsModeSet c 'P')) = [("#perm".toList, true)]
    ∧ (OnRehash { Time := 7, modes := fun _ => none, topicNotify := true }
        { filename := "db".toList,
          permchannels := [{ channel := "#perm".toList, topic := "t".toList, modes := "P".toList }] }
        { dirty := false }
        { permchannelsconf := [], chanlist := [], fs := fun _ => none }).1.dirty = false
    ∧ (OnBackgroundTimer { win32 := false, fails := fun _ => false, shortWrite := 0 } (fun _ => [])
        (OnRehash { Time := 7, modes := fun _ => none, topicNotify := true }
          { filename := "db".toList,
            permchannels := [{ channel := "#perm".toList, topic := "t".toList, modes := "P".toList }] }
          { dirty := false }
          { permchannelsconf := [], chanlist := [], fs := fun _ => none }).1
        (OnRehash { Time := 7, modes := fun _ => none, topicNotify := true }
          { filename := "db".toList,
            permchannels := [{ channel := "#perm".toList, topic := "t".toList, modes := "P".toList }] }
          { dirty := false }
          { permchannelsconf := [], chanlist := [], fs := fun _ => none }).2.1).map
      (fun r => r.2.2) = some [] :=
  ⟨by decide,
   (C20_rehash_keeps_dirty { Time := 7, modes := fun _ => none, topicNotify := true }
      { filename := "db".toList,
        permchannels := [{ channel := "#perm".toList, topic := "t".toList, modes := "P".toList }] }
      { dirty := false }
      { permchannelsconf := [], chanlist := [], fs := fun _ => none }).2.1,
   by
    rw [(C20_rehash_keeps_dirty { Time := 7, modes := fun _ => none, topicNotify := true }
      { filename := "db".toList,
        permchannels := [{ channel := "#perm".toList, topic := "t".toList, modes := "P".toList }] }
      { dirty := false }
      { permchannelsconf := [], chanlist := [], fs := fun _ => none }).2.2 rfl]
    rfl⟩

/-! ## Rehydration: the handler calls of the modes loop -/

theorem rehash_chanlist (host : Host) (config : ServerConfig) (m : ModulePermanentChannels) (w : World) :
    ∃ created, (OnRehash host config m w).2.1.chanlist = w.chanlist ++ created
      ∧ (OnRehash host config m w).1 = m := by
  obtain ⟨created, newlog, e, _, _, _⟩ := rehash_fold_spec host config.permchannels m w.chanlist []
  exact ⟨created, by simp only [OnRehash, e], by simp only [OnRehash, e]⟩

/-- C14: `OnChannelPreDelete` returns `MOD_RES_DENY` for every channel with mode `P` set and
`MOD_RES_PASSTHRU` for every channel without it; two channels with the same `P` flag get
the same answer, whatever their member counts; and the module and the world are the same
after the hook as before it. -/
theorem C14_predelete_veto (c : Channel) :
    (OnChannelPreDelete c = MOD_RES_DENY ↔ IsModeSet c 'P' = true)
    ∧ (OnChannelPreDelete c = MOD_RES_PASSTHRU ↔ IsModeSet c 'P' = false)
    ∧ (∀ c2 : Channel, IsModeSet c2 'P' = IsModeSet c 'P' →
        OnChannelPreDelete c2 = OnChannelPreDelete c)
    ∧ (∀ n : Nat, OnChannelPreDelete { c with users := n } = OnChannelPreDelete c)
    ∧ ∀ s : ModulePermanentChannels × World, step (Event.channelPreDelete c) s = some s := by
  refine ⟨?_, ?_, ?_, ?_, fun s => rfl⟩
  · cases h : IsModeSet c 'P' <;> simp [OnChannelPreDelete, h]
  · cases h : IsModeSet c 'P' <;> simp [OnChannelPreDelete, h]
  · intro c2 h
    simp [OnChannelPreDelete, h]
  · intro n
    rfl

theorem mem_store_of_mem (chanlist : List Channel) (ch c : Channel) (h : c ∈ chanlist) :
    (if c.name = ch.name then ch else c) ∈ store chanlist ch := by
  simp only [store, List.mem_map]
  exact ⟨c, h, rfl⟩

/-- C16: every call into the module other than an accepted remove through
`PermChannel::OnModeChange` (that is `OnRehash`, `OnRawMode`, `OnPostTopicChange`,
`OnBackgroundTimer`, `OnChannelPreDelete`, a gate add, a denied gate remove) keeps every
flagged channel: a channel of that name with mode `P` set is in `chanlist` afterwards.  An
accepted remove leaves no flagged channel of the name it was called on and keeps every
channel of another name. -/
theorem C16_flag_survives (ev : Event) (s s' : ModulePermanentChannels × World)
    (hstep : step ev s = some s')
    (hacc : ∀ channel, ev = Event.gate channel false →
      (PermChannel.OnModeChange s.2.chanlist channel false).1 ≠ MODEACTION_ALLOW) :
    (∀ c ∈ s.2.chanlist, IsModeSet c 'P' = true →
      ∃ c' ∈ s'.2.chanlist, c'.name = c.name ∧ IsModeSet c' 'P' = true)
    ∧ ∀ (cl : List Channel) (channel : Channel),
        (PermChannel.OnModeChange cl channel false).1 = MODEACTION_ALLOW →
        (∀ c ∈ (PermChannel.OnModeChange cl channel false).2.2,
            c.name = channel.name → IsModeSet c 'P' = false)
        ∧ ∀ c ∈ cl, c.name ≠ channel.name → c ∈ (PermChannel.OnModeChange cl channel false).2.2 := by
  constructor
  · intro c hc hP
    have same : s'.2.chanlist = s.2.chanlist → ∃ c' ∈ s'.2.chanlist, c'.name = c.name
        ∧ IsModeSet c' 'P' = true := fun e => ⟨c, by rw [e]; exact hc, rfl, hP⟩
    cases ev with
    | rehash host config =>
      simp only [step, Option.some.injEq] at hstep
      obtain ⟨created, hcl, _⟩ := rehash_chanlist host config s.1 s.2
      refine ⟨c, ?_, rfl, hP⟩
      rw [← hstep, hcl]
      simp [hc]
    | rawMode chan mode param adding pcnt =>
      simp only [step, Option.some.injEq] at hstep
      exact same (by rw [← hstep])
    | postTopicChange c0 =>
      simp only [step, Option.some.injEq] at hstep
      exact same (by rw [← hstep])
    | backgroundTimer sys ChanModes =>
      simp only [step, OnBackgroundTimer] at hstep
      split at hstep
      · cases hw : WriteDatabase sys ChanModes s.2.permchannelsconf s.2.chanlist s.2.fs with
        | none => simp [hw] at hstep
        | some r =>
          simp [hw] at hstep
          exact same (by rw [← hstep])
      · simp at hstep
        exact same (by rw [← hstep])
    | channelPreDelete c0 =>
      simp only [step, Option.some.injEq] at hstep
      exact same (by rw [← hstep])
    | gate channel adding =>
      simp only [step, Option.some.injEq] at hstep
      cases adding
      · have hden := hacc channel rfl
        cases hch : IsModeSet channel 'P'
        · rw [onModeChange_remove_unset _ _ hch] at hstep
          exact same (by rw [← hstep])
        · rw [onModeChange_remove _ _ hch] at hden
          exact absurd rfl hden
      · cases hch : IsModeSet channel 'P'
        · rw [onModeChange_add _ _ hch] at hstep
          have hin := mem_store_of_mem s.2.chanlist (SetMode channel 'P' true) c hc
          rw [setMode_name] at hin
          by_cases hn : c.name = channel.name
          · rw [if_pos hn] at hin
            exact ⟨SetMode channel 'P' true, by rw [← hstep]; exact hin, hn.symm,
              isModeSet_setMode_same _ _ _⟩
          · rw [if_neg hn] at hin
            exact ⟨c, by rw [← hstep]; exact hin, rfl, hP⟩
        · rw [onModeChange_add_set _ _ hch] at hstep
          exact same (by rw [← hstep])
  · intro cl channel hall
    have hch : IsModeSet channel 'P' = true := by
      cases h : IsModeSet channel 'P'
      · rw [onModeChange_remove_unset _ _ h] at hall
        simp at hall
      · rfl
    rw [onModeChange_remove _ _ hch]
    constructor
    · intro c hc hn
      have hsub : c ∈ store cl (SetMode channel 'P' false) := by
        simp only at hc
        split at hc
        · exact (List.mem_filter.mp hc).1
        · exact hc
      rw [mem_store_same _ _ c hsub hn]
      exact isModeSet_setMode_same _ _ _
    · intro c hc hn
      have hin := mem_store_of_mem cl (SetMode channel 'P' false) c hc
      rw [setMode_name, if_neg hn] at hin
      simp only
      split
      · exact List.mem_filter.mpr ⟨hin, by simpa using hn⟩
      · exact hin

/-- C16 at a gate add on the unflagged channel `#b` of a list that also holds the flagged
channel `#a`: `#a` is still listed and flagged afterwards. -/
theorem C16_flag_survives_witness :
    ∃ c' ∈ (PermChannel.OnModeChange
        [ { name := "#a".toList, age := 0, topic := [], topicset := 0,
            modes := fun m => decide (m = 'P'), params := fun _ => [], users := 0 },
          { name := "#b".toList, age := 0, topic := [], topicset := 0,
            modes := fun _ => false, params := fun _ => [], users := 3 } ]
        { name := "#b".toList, age := 0, topic := [], topicset := 0,
          modes := fun _ => false, params := fun _ => [], users := 3 } true).2.2,
      c'.name = "#a".toList ∧ IsModeSet c' 'P' = true :=
  (C16_flag_survives
    (Event.gate { name := "#b".toList, age := 0, topic := [], topicset := 0,
                  modes := fun _ => false, params := fun _ => [], users := 3 } true)
    ({ dirty := false },
     { permchannelsconf := [], fs := fun _ => none,
       chanlist :=
        [ { name := "#a".toList, age := 0, topic := [], topicset := 0,
            modes := fun m => decide (m = 'P'), params := fun _ => [], users := 0 },
          { name := "#b".toList, age := 0, topic := [], topicset := 0,
            modes := fun _ => false, params := fun _ => [], users := 3 } ] })
    ({ dirty := false },
     { permchannelsconf := [], fs := fun _ => none,
       chanlist := (PermChannel.OnModeChange
        [ { name := "#a".toList, age := 0, topic := [], topicset := 0,
            modes := fun m => decide (m = 'P'), params := fun _ => [], users := 0 },
          { name := "#b".toList, age := 0, topic := [], topicset := 0,
            modes := fun _ => false, params := fun _ => [], users := 3 } ]
        { name := "#b".toList, age := 0, topic := [], topicset := 0,
          modes := fun _ => false, params := fun _ => [], users := 3 } true).2.2 })
    rfl
    (by
      intro channel h
      simp at h)).1
    { name := "#a".toList, age := 0, topic := [], topicset := 0,
      modes := fun m => decide (m = 'P'), params := fun _ => [], users := 0 }
    (List.mem_cons_self _ _) rfl

/-! ## The shape of the ideal line -/

theorem idealLine_eq (n t m : List Char) :
    idealLine n t m
      = "<permchannels channel=\"".toList
          ++ ((esc n ++ "\" topic=\"".toList ++ esc t ++ "\" modes=\"".toList ++ esc m
                ++ "\">".toList) ++ ['\n']) := by
  have k : "\">\n".toList = "\">".toList ++ ['\n'] := by decide
  rw [idealLine, k]
  simp only [List.append_assoc]

theorem idealLine_getLast (n t m : List Char) : (idealLine n t m).getLast? = some '\n' := by
  rw [idealLine_eq, ← List.append_assoc]
  exact List.getLast?_concat _

theorem idealLine_isRecordLine (n t m : List Char) :
    isRecordLine (idealLine n t m).dropLast = true := by
  have hd : (idealLine n t m).dropLast
      = "<permchannels channel=\"".toList
          ++ ((esc n ++ "\" topic=\"".toList ++ esc t ++ "\" modes=\"".toList ++ esc m)
                ++ "\">".toList) := by
    rw [idealLine_eq, ← List.append_assoc, List.dropLast_concat]
  rw [hd, isRecordLine, Bool.and_eq_true]
  constructor
  · rw [List.isPrefixOf_iff_prefix]
    exact List.prefix_append _ _
  · rw [List.isSuffixOf_iff_suffix, ← List.append_assoc]
    exact List.suffix_append _ _

/-! ## The layout of the snapshot -/

/-- C17, as the claim states it, fails: for an empty `chanlist` the file is the header
alone, and the header is three lines, of which the second and the third are not record
lines. -/
theorem C17_counterexample :
    (WriteDatabase { win32 := false, fails := fun _ => false, shortWrite := 0 } (fun _ => [])
        "db".toList [] (fun _ => none)).map (fun r => (r.1, r.2 "db".toList))
      = some (true, some header)
    ∧ splitLines header
        = [ "# Permchannels DB".toList,
            "# This file is autogenerated; any changes will be overwritten!".toList,
            "<config format=\"compat\">".toList ]
    ∧ isRecordLine "# This file is autogenerated; any changes will be overwritten!".toList = false
    ∧ isRecordLine "<config format=\"compat\">".toList = false
    ∧ specLayout header = false := by
  decide

/-- C17 (amended): the snapshot is the fixed header, which is three lines (two comment
lines and the `config` tag), followed for each channel with mode `P` set, in the order of
`chanlist`, by the line the serializer writes for it, and nothing else; that line is the
newline-terminated record line `<permchannels channel=".." topic=".." modes="..">` whenever
the record line has at most 1021 bytes. -/
theorem C17_snapshot_layout (ChanModes : Channel → List Char) (chanlist : List Channel) :
    ∃ recs, writeRecords ChanModes chanlist = some recs
      ∧ List.Forall₂
          (fun c line => serializeLine c.name c.topic (ChanModes c) = some line
            ∧ ((idealLine (cstr c.name) (cstr c.topic) (cstr (ChanModes c))).length ≤ 1021 →
                line = idealLine (cstr c.name) (cstr c.topic) (cstr (ChanModes c))
                ∧ isRecordLine line.dropLast = true ∧ line.getLast? = some '\n'))
          (chanlist.filter fun c => IsModeSet c 'P') recs
      ∧ (∀ (sys : Sys) (conf : List Char) (fs : FS), conf ≠ [] →
          (∀ st, sys.fails st = false) → (sys.win32 = true → fs conf ≠ none) →
          (WriteDatabase sys ChanModes conf chanlist fs).map (fun r => (r.1, r.2 conf))
            = some (true, some (header ++ flat recs)))
      ∧ splitLines header
          = [ "# Permchannels DB".toList,
              "# This file is autogenerated; any changes will be overwritten!".toList,
              "<config format=\"compat\">".toList ] := by
  obtain ⟨recs, hrecs, hall⟩ := writeRecords_forall₂ ChanModes chanlist
  refine ⟨recs, hrecs, ?_, ?_, by decide⟩
  · refine List.Forall₂.imp ?_ hall
    intro c line h
    refine ⟨h, fun hfit => ?_⟩
    have hl := serializeLine_of_fits c.name c.topic (ChanModes c) hfit
    rw [h] at hl
    have heq : line = idealLine (cstr c.name) (cstr c.topic) (cstr (ChanModes c)) :=
      Option.some.inj hl
    refine ⟨heq, ?_, ?_⟩
    · rw [heq]
      exact idealLine_isRecordLine _ _ _
    · rw [heq]
      exact idealLine_getLast _ _ _
  · intro sys conf fs hconf hok hwin
    cases hw : sys.win32
    · simp [WriteDatabase, hconf, hrecs, FS.put, hok, hw]
    · cases hold : fs conf with
      | none => exact absurd hold (hwin hw)
      | some old => simp [WriteDatabase, hconf, hrecs, FS.put, hok, hw, hold]

/-- C17 (amended) at a list with the flagged channel `#a` and the unflagged channel `#b`:
the file is the header followed by the record line of `#a`. -/
theorem C17_snapshot_layout_witness :
    (WriteDatabase { win32 := false, fails := fun _ => false, shortWrite := 0 }
        (fun _ => "P".toList) "db".toList
        [ { name := "#a".toList, age := 0, topic := "hi".toList, topicset := 0,
            modes := fun m => decide (m = 'P'), params := fun _ => [], users := 0 },
          { name := "#b".toList, age := 0, topic := [], topicset := 0,
            modes := fun _ => false, params := fun _ => [], users := 2 } ]
        (fun _ => none)).map (fun r => (r.1, r.2 "db".toList))
      = some (true, some (header
          ++ "<permchannels channel=\"#a\" topic=\"hi\" modes=\"P\">\n".toList)) := by
  obtain ⟨recs, h1, _, h3, _⟩ := C17_snapshot_layout (fun _ => "P".toList)
    [ { name := "#a".toList, age := 0, topic := "hi".toList, topicset := 0,
        modes := fun m => decide (m = 'P'), params := fun _ => [], users := 0 },
      { name := "#b".toList, age := 0, topic := [], topicset := 0,
        modes := fun _ => false, params := fun _ => [], users := 2 } ]
  have hr : recs = ["<permchannels channel=\"#a\" topic=\"hi\" modes=\"P\">\n".toList] :=
    Option.some.inj (h1.symm.trans (by decide))
  rw [h3 { win32 := false, fails := fun _ => false, shortWrite := 0 } "db".toList (fun _ => none)
    (by decide) (fun _ => rfl) (by decide), hr]
  rfl

/-! ## The `#help` example -/

theorem writeRecords_append_unflagged (ChanModes : Channel → List Char) (cl : List Channel)
    (c : Channel) (h : IsModeSet c 'P' = false) :
    writeRecords ChanModes (cl ++ [c]) = writeRecords ChanModes cl := by
  induction cl with
  | nil => simp [writeRecords, h]
  | cons x rest ih =>
    rw [List.cons_append, writeRecords, writeRecords, ih]

/-- C18, as the claim states it, fails: on an empty registry, with `n` and `t` registered as
parameterless flag modes, the record creates `#help` with topic `Ask here`, timestamp 42
and modes `n`, `t`, both applied without parameter; mode `P` is not set on it, so the
serializer emits no record at all and the claimed line is not in the snapshot. -/
theorem C18_counterexample :
    (OnRehash
        { Time := 5, modes := fun l => if l = 'n' ∨ l = 't' then some (flagMode l) else none,
          topicNotify := true }
        { filename := "db".toList,
          permchannels := [{ channel := "#help".toList, topic := "Ask here".toList,
                             modes := "nt".toList }] }
        { dirty := false }
        { permchannelsconf := [], chanlist := [], fs := fun _ => none }).2.1.chanlist.map
      (fun c => (c.name, c.topic, c.topicset, c.ChanModes, IsModeSet c 'P'))
      = [("#help".toList, "Ask here".toList, 42, "nt".toList, false)]
    ∧ (OnRehash
        { Time := 5, modes := fun l => if l = 'n' ∨ l = 't' then some (flagMode l) else none,
          topicNotify := true }
        { filename := "db".toList,
          permchannels := [{ channel := "#help".toList, topic := "Ask here".toList,
                             modes := "nt".toList }] }
        { dirty := false }
        { permchannelsconf := [], chanlist := [], fs := fun _ => none }).2.2
      = [ { chan := "#help".toList, mode := 'n', parameter := [], adding := true },
          { chan := "#help".toList, mode := 't', parameter := [], adding := true } ]
    ∧ writeRecords Channel.ChanModes
        (OnRehash
          { Time := 5, modes := fun l => if l = 'n' ∨ l = 't' then some (flagMode l) else none,
            topicNotify := true }
          { filename := "db".toList,
            permchannels := [{ channel := "#help".toList, topic := "Ask here".toList,
                               modes := "nt".toList }] }
          { dirty := false }
          { permchannelsconf := [], chanlist := [], fs := fun _ => none }).2.1.chanlist
      = some [] := by
  decide

/-- C18 (amended): for the record `#help`, `Ask here`, `nt` rehydrated into a registry
without `#help`, with `n` and `t` registered as parameterless flag modes: a new channel
`#help` is created in the last place, its topic is `Ask here` with timestamp 42, `n` and
`t` are applied to it with the empty parameter, its mode string is `nt` and mode `P` is not
set on it; so the snapshot of the resulting registry has no record for it, its records
being those of the registry before the call.  Declared with modes `ntP` on an empty
registry, the channel is flagged and the snapshot has the one record line with
`modes="Pnt"`. -/
theorem C18_help_example (host : Host) (config : ServerConfig) (m : ModulePermanentChannels)
    (w : World)
    (hcfg : config.permchannels
      = [{ channel := "#help".toList, topic := "Ask here".toList, modes := "nt".toList }])
    (hnew : FindChan w.chanlist "#help".toList = none)
    (hn : host.modes 'n' = some (flagMode 'n')) (ht : host.modes 't' = some (flagMode 't')) :
    (∃ help, (OnRehash host config m w).2.1.chanlist = w.chanlist ++ [help]
      ∧ help.name = "#help".toList ∧ help.topic = "Ask here".toList ∧ help.topicset = 42
      ∧ IsModeSet help 'n' = true ∧ IsModeSet help 't' = true ∧ IsModeSet help 'P' = false
      ∧ help.ChanModes = "nt".toList
      ∧ (OnRehash host config m w).2.2
          = [ { chan := "#help".toList, mode := 'n', parameter := [], adding := true },
              { chan := "#help".toList, mode := 't', parameter := [], adding := true } ]
      ∧ ∀ ChanModes : Channel → List Char,
          writeRecords ChanModes (OnRehash host config m w).2.1.chanlist
            = writeRecords ChanModes w.chanlist)
    ∧ writeRecords Channel.ChanModes
        (OnRehash
          { Time := 5, modes := fun l => if l = 'n' ∨ l = 't' then some (flagMode l) else none,
            topicNotify := true }
          { filename := "db".toList,
            permchannels := [{ channel := "#help".toList, topic := "Ask here".toList,
                               modes := "ntP".toList }] }
          { dirty := false }
          { permchannelsconf := [], chanlist := [], fs := fun _ => none }).2.1.chanlist
      = some ["<permchannels channel=\"#help\" topic=\"Ask here\" modes=\"Pnt\">\n".toList] := by
  refine ⟨?_, by decide⟩
  have hold : ∀ x ∈ w.chanlist, x.name ≠ "#help".toList := (findChan_eq_none _ _).mp hnew
  obtain ⟨_, c1n, c1t, c1ts, c1m, _, c1p, _⟩ := createChannel_spec host m w.chanlist
    { channel := "#help".toList, topic := "Ask here".toList, modes := "nt".toList } hold
  have hold1 : ∀ x ∈ w.chanlist, x.name ≠ (createChannel host m w.chanlist
      { channel := "#help".toList, topic := "Ask here".toList, modes := "nt".toList }).2.1.name := by
    rw [c1n]
    exact hold
  have htok : GetToken (spaceTokens "nt".toList) = ("nt".toList, []) := by decide
  have hre := rehashTag_new host m w.chanlist []
    { channel := "#help".toList, topic := "Ask here".toList, modes := "nt".toList }
    (by decide) hnew
  simp only [htok] at hre
  rw [if_neg (by decide)] at hre
  obtain ⟨_, g2, _⟩ := applyModes_last host "nt".toList [] _ w.chanlist hold1
  have hfn : FindMode host 'n' = some (Found.other (flagMode 'n')) := by
    simp [FindMode, hn]
  have hft : FindMode host 't' = some (Found.other (flagMode 't')) := by
    simp [FindMode, ht]
  have hnt : "nt".toList = ['n', 't'] := rfl
  have hmodes : ∀ (c : Channel) (cl : List Channel),
      (applyModes host "nt".toList [] c cl).1.modes
          = (fun x => if x = 't' then true else if x = 'n' then true else c.modes x)
        ∧ (applyModes host "nt".toList [] c cl).1.params = c.params
        ∧ (applyModes host "nt".toList [] c cl).1.topic = c.topic
        ∧ (applyModes host "nt".toList [] c cl).1.topicset = c.topicset
        ∧ (applyModes host "nt".toList [] c cl).2.2
            = [ { chan := c.name, mode := 'n', parameter := [], adding := true },
                { chan := c.name, mode := 't', parameter := [], adding := true } ] := by
    intro c cl
    rw [hnt]
    simp [applyModes, hfn, hft, GetNumParams, flagMode, invoke]
  obtain ⟨a1, a2, a3, a4, a5⟩ := hmodes (createChannel host m w.chanlist
    { channel := "#help".toList, topic := "Ask here".toList, modes := "nt".toList }).2.1
    (w.chanlist ++ [(createChannel host m w.chanlist
      { channel := "#help".toList, topic := "Ask here".toList, modes := "nt".toList }).2.1])
  rw [c1m] at a1
  rw [c1p] at a2
  have hcl : (OnRehash host config m w).2.1.chanlist
      = w.chanlist ++ [(applyModes host "nt".toList []
          (createChannel host m w.chanlist
            { channel := "#help".toList, topic := "Ask here".toList, modes := "nt".toList }).2.1
          (w.chanlist ++ [(createChannel host m w.chanlist
            { channel := "#help".toList, topic := "Ask here".toList,
              modes := "nt".toList }).2.1])).1] := by
    simp only [OnRehash, hcfg, List.foldl_cons, List.foldl_nil, hre]
  have hlog : (OnRehash host config m w).2.2
      = (applyModes host "nt".toList []
          (createChannel host m w.chanlist
            { channel := "#help".toList, topic := "Ask here".toList, modes := "nt".toList }).2.1
          (w.chanlist ++ [(createChannel host m w.chanlist
            { channel := "#help".toList, topic := "Ask here".toList,
              modes := "nt".toList }).2.1])).2.2 := by
    simp only [OnRehash, hcfg, List.foldl_cons, List.foldl_nil, hre, List.nil_append]
  have hP : IsModeSet (applyModes host "nt".toList []
      (createChannel host m w.chanlist
        { channel := "#help".toList, topic := "Ask here".toList, modes := "nt".toList }).2.1
      (w.chanlist ++ [(createChannel host m w.chanlist
        { channel := "#help".toList, topic := "Ask here".toList,
          modes := "nt".toList }).2.1])).1 'P' = false := by
    rw [IsModeSet, a1]
    decide
  refine ⟨_, hcl, g2.trans c1n, a3.trans c1t, ?_, ?_, ?_, hP, ?_, ?_, ?_⟩
  · rw [a4, c1ts]
    decide
  · rw [IsModeSet, a1]
    decide
  · rw [IsModeSet, a1]
    decide
  · rw [Channel.ChanModes, a1, a2]
    decide
  · rw [hlog, a5, c1n]
  · intro ChanModes
    rw [hcl]
    exact writeRecords_append_unflagged ChanModes _ _ hP

/-- C18 (amended) on an empty registry. -/
theorem C18_help_example_witness :
    ∃ help, (OnRehash
        { Time := 5, modes := fun l => if l = 'n' ∨ l = 't' then some (flagMode l) else none,
          topicNotify := true }
        { filename := "db".toList,
          permchannels := [{ channel := "#help".toList, topic := "Ask here".toList,
                             modes := "nt".toList }] }
        { dirty := false }
        { permchannelsconf := [], chanlist := [], fs := fun _ => none }).2.1.chanlist = [help]
      ∧ help.name = "#help".toList ∧ help.topicset = 42 ∧ IsModeSet help 'P' = false :=
  let ⟨help, h1, h2, _, h4, _, _, h7, _⟩ := (C18_help_example
    { Time := 5, modes := fun l => if l = 'n' ∨ l = 't' then some (flagMode l) else none,
      topicNotify := true }
    { filename := "db".toList,
      permchannels := [{ channel := "#help".toList, topic := "Ask here".toList,
                         modes := "nt".toList }] }
    { dirty := false }
    { permchannelsconf := [], chanlist := [], fs := fun _ => none }
    rfl rfl rfl rfl).1
  ⟨help, h1, h2, h4, h7⟩

end PermChannels
